import Mathlib

/-!
# smtp-to-slack: attachment extraction

A shallow embedding of `main.go` of `mjohnsey/smtp-to-slack`:
`FileNameFromDisposition`, `GetAttachments` and the message loop of `main`,
together with the two standard-library services they rely on, Go's
`regexp` (leftmost-first matching) and `encoding/base64`
(`StdEncoding.DecodeString`).

Go strings that reach the program come out of `json.Unmarshal`, hence are
valid UTF-8; they are represented by Lean `String`s.  Byte slices are lists
of naturals below 256.
-/

namespace SmtpToSlack

/-! ## Regular expressions (Go `regexp`, leftmost-first semantics) -/

/-- Syntax of the regular expressions needed for the pattern of
`FileNameFromDisposition`.  Repetition is over a one-character matcher,
which is all the pattern uses; `x+` is `x` followed by `x*` and `x?` is the
alternation of `x` with the empty expression, as in `regexp/syntax`. -/
inductive Regexp where
  | empty : Regexp
  | lit (c : Char) : Regexp
  | cls (p : Char → Bool) : Regexp
  | bol : Regexp
  | eol : Regexp
  | star (p : Char → Bool) : Regexp
  | alt (a b : Regexp) : Regexp
  | cat (a b : Regexp) : Regexp
  | capture (r : Regexp) : Regexp

/-- A matching thread: the character before the current position, the input
that is left, and the text of capture group 1 once the group is closed. -/
structure Thread where
  prev : Option Char
  rest : List Char
  cap : Option (List Char)
deriving DecidableEq, Repr

/-- Greedy `x*`: every way of consuming characters accepted by `p`, longest
first. -/
def starRun (p : Char → Bool) (cap : Option (List Char)) :
    Option Char → List Char → List Thread
  | prev, [] => [⟨prev, [], cap⟩]
  | prev, c :: cs =>
    if p c then starRun p cap (some c) cs ++ [⟨prev, c :: cs, cap⟩]
    else [⟨prev, c :: cs, cap⟩]

/-- All the threads a backtracking matcher reaches after matching `r` from
`t`, in the order in which it tries them (preferred first).  `bol` and
`eol` are `^` and `$` under the flag `(?m)`. -/
def Regexp.run : Regexp → Thread → List Thread
  | .empty, t => [t]
  | .lit c, t =>
    match t.rest with
    | d :: ds => if d = c then [⟨some d, ds, t.cap⟩] else []
    | [] => []
  | .cls p, t =>
    match t.rest with
    | d :: ds => if p d then [⟨some d, ds, t.cap⟩] else []
    | [] => []
  | .bol, t => if t.prev = none ∨ t.prev = some '\n' then [t] else []
  | .eol, t => if t.rest = [] ∨ t.rest.head? = some '\n' then [t] else []
  | .star p, t => starRun p t.cap t.prev t.rest
  | .alt a b, t => a.run t ++ b.run t
  | .cat a b, t => (a.run t).flatMap b.run
  | .capture r, t =>
    (r.run t).map fun u =>
      { u with cap := some (t.rest.take (t.rest.length - u.rest.length)) }

/-- The expression `x?` (greedy). -/
def Regexp.quest (r : Regexp) : Regexp := .alt r .empty

/-- The expression `x+` (greedy) for a one-character matcher. -/
def Regexp.plus (p : Char → Bool) : Regexp := .cat (.cls p) (.star p)

/-- A literal string. -/
def Regexp.lits : List Char → Regexp
  | [] => .empty
  | c :: cs => .cat (.lit c) (Regexp.lits cs)

/-- One match: where it starts (the input left at its start), and the thread
at its end. -/
structure Match where
  start : List Char
  stop : Thread
deriving DecidableEq, Repr

/-- The leftmost-first match at or after the current position: the first
thread of the first start position that has one. -/
def Regexp.search (r : Regexp) : Option Char → List Char → Option Match
  | prev, [] =>
    match r.run ⟨prev, [], none⟩ with
    | u :: _ => some ⟨[], u⟩
    | [] => none
  | prev, c :: cs =>
    match r.run ⟨prev, c :: cs, none⟩ with
    | u :: _ => some ⟨c :: cs, u⟩
    | [] => r.search (some c) cs

/-- The strings of a match: the whole match and group 1 (empty when the
group took no part). -/
def Match.submatch (m : Match) : List String :=
  [String.mk (m.start.take (m.start.length - m.stop.rest.length)),
   String.mk (m.stop.cap.getD [])]

/-- Go `(*Regexp).MatchString`. -/
def Regexp.MatchString (r : Regexp) (s : String) : Bool :=
  (r.search none s.data).isSome

/-- The loop of Go `(*Regexp).allMatches`: successive non-overlapping
matches, an empty match right after the previous match being dropped.
`prevEnd` is the length of input left at the end of the previous match. -/
def Regexp.allMatches (r : Regexp) :
    Nat → Option Nat → Option Char → List Char → List Match
  | 0, _, _, _ => []
  | fuel + 1, prevEnd, prev, input =>
    match r.search prev input with
    | none => []
    | some m =>
      if m.stop.rest.length = input.length then
        -- an empty match at the current position: move one character on
        let accept := decide (prevEnd ≠ some m.start.length)
        let more :=
          match input with
          | [] => []
          | c :: cs => r.allMatches fuel (some m.stop.rest.length) (some c) cs
        if accept then m :: more else more
      else
        m :: r.allMatches fuel (some m.stop.rest.length) m.stop.prev m.stop.rest

/-- Go `(*Regexp).FindAllStringSubmatch(s, -1)`. -/
def Regexp.FindAllStringSubmatch (r : Regexp) (s : String) : List (List String) :=
  (r.allMatches (s.data.length + 1) none none s.data).map Match.submatch

/-- The class `\s` of Go regular expressions: `[\t\n\f\r ]`. -/
def isSpaceClass (c : Char) : Bool :=
  c = '\t' || c = '\n' || c = Char.ofNat 12 || c = '\r' || c = ' '

/-- The class `[^"]`. -/
def notQuote (c : Char) : Bool := c != '"'

/-- The pattern compiled in `FileNameFromDisposition`:
`(?m)^attachment;\s*filename="?([^"]+)"?$`. -/
def dispositionRegexp : Regexp :=
  .cat .bol
    (.cat (Regexp.lits "attachment;".data)
      (.cat (.star isSpaceClass)
        (.cat (Regexp.lits "filename=".data)
          (.cat (Regexp.quest (.lit '"'))
            (.cat (.capture (Regexp.plus notQuote))
              (.cat (Regexp.quest (.lit '"')) .eol))))))

/-- `MessagesResult.FileNameFromDisposition` of `main.go`. -/
def FileNameFromDisposition (disposition : List String) : String :=
  if disposition.length > 0 then
    if disposition.length = 1 then
      let disp := disposition.headD ""
      if dispositionRegexp.MatchString disp then
        let submatches := dispositionRegexp.FindAllStringSubmatch disp
        match submatches with
        | m :: _ => if m.length > 0 then m.getD 1 "" else ""
        | [] => ""
      else ""
    else ""
  else ""

/-! ## Go `encoding/base64`, `StdEncoding` -/

/-- The bytes of a Go string: the UTF-8 encoding of one character. -/
def utf8Bytes (c : Char) : List Nat :=
  let v := c.toNat
  if v ≤ 0x7f then [v]
  else if v ≤ 0x7ff then [0xc0 + v / 64, 0x80 + v % 64]
  else if v ≤ 0xffff then [0xe0 + v / 4096, 0x80 + v / 64 % 64, 0x80 + v % 64]
  else [0xf0 + v / 262144, 0x80 + v / 4096 % 64, 0x80 + v / 64 % 64, 0x80 + v % 64]

/-- The conversion `[]byte(s)`. -/
def stringBytes (s : String) : List Nat := s.data.flatMap utf8Bytes

/-- The alphabet `encodeStd` of `StdEncoding`. -/
def encodeStd : List Char :=
  "ABCDEFGHIJKLMNOPQRSTUVWXYZabcdefghijklmnopqrstuvwxyz0123456789+/".data

/-- The padding character `StdPadding`, the byte of `=`. -/
def padChar : Nat := 61

/-- The table `decodeMap` of `StdEncoding`: the position in the alphabet of
the character with code `b`; `none` stands for the entry `0xff`. -/
def decodeMap (b : Nat) : Option Nat :=
  let i := (encodeStd.map Char.toNat).indexOf b
  if i < 64 then some i else none

/-- A Go `base64.Encoding` over the standard alphabet with padding: only
the flag `strict` varies. -/
structure Encoding where
  strict : Bool
deriving DecidableEq, Repr

/-- Go `base64.StdEncoding`. -/
def StdEncoding : Encoding := ⟨false⟩

/-- Go `(*Encoding).Strict`. -/
def Encoding.Strict (_enc : Encoding) : Encoding := ⟨true⟩

/-- What `decodeQuantum` returns: the new source index `nsi` with the source
left from there, the bytes written to `dst` (`n` of them) and the error
(the offset of a `CorruptInputError`). -/
structure Quantum where
  rest : List Nat
  nsi : Nat
  out : List Nat
  err : Option Nat
deriving DecidableEq, Repr

/-- The loop `for si < len(src) && (src[si] == '\n' || src[si] == '\r')`. -/
def skipNewlines : List Nat → Nat → List Nat × Nat
  | [], si => ([], si)
  | c :: cs, si => if c = 10 ∨ c = 13 then skipNewlines cs (si + 1) else (c :: cs, si)

/-- The end of `decodeQuantum`: four 6-bit values become up to three bytes;
`dlen` is the number of 6-bit values read. -/
def quantumBytes (enc : Encoding) (dbuf : List Nat) (dlen : Nat)
    (rest : List Nat) (si : Nat) (err : Option Nat) : Quantum :=
  let val := dbuf.getD 0 0 <<< 18 ||| dbuf.getD 1 0 <<< 12 ||| dbuf.getD 2 0 <<< 6
    ||| dbuf.getD 3 0
  let b2 := (val >>> 0) % 256
  let b1 := (val >>> 8) % 256
  let b0 := (val >>> 16) % 256
  if dlen = 4 then ⟨rest, si, [b0, b1, b2], err⟩
  else if dlen = 3 then
    if enc.strict ∧ b2 ≠ 0 then ⟨rest, si, [], some (si - 1)⟩
    else ⟨rest, si, [b0, b1], err⟩
  else
    if enc.strict ∧ (b1 ≠ 0 ∨ b2 ≠ 0) then ⟨rest, si, [], some (si - 2)⟩
    else ⟨rest, si, [b0], err⟩

/-- The loop `for j := 0; j < len(dbuf); j++` of `decodeQuantum`, followed by
the conversion: `j` values are in `dbuf`, `src` is the source from index
`si` on. -/
def quantumLoop (enc : Encoding) : Nat → List Nat → List Nat → Nat → Quantum
  | j, dbuf, [], si =>
    if 4 ≤ j then quantumBytes enc dbuf 4 [] si none
    else if j = 0 then ⟨[], si, [], none⟩
    else ⟨[], si, [], some (si - j)⟩
  | j, dbuf, b :: src, si =>
    if 4 ≤ j then quantumBytes enc dbuf 4 (b :: src) si none
    else
      match decodeMap b with
      | some out => quantumLoop enc (j + 1) (dbuf ++ [out]) src (si + 1)
      | none =>
        if b = 10 ∨ b = 13 then quantumLoop enc j dbuf src (si + 1)
        else if b ≠ padChar then ⟨src, si + 1, [], some (si + 1 - 1)⟩
        else if j < 2 then ⟨src, si + 1, [], some (si + 1 - 1)⟩
        else if j = 2 then
          -- "==" is expected, the first "=" is already consumed
          match skipNewlines src (si + 1) with
          | ([], si1) => ⟨[], si1, [], some si1⟩
          | (c :: src1, si1) =>
            if c ≠ padChar then ⟨c :: src1, si1, [], some (si1 - 1)⟩
            else
              let (src2, si2) := skipNewlines src1 (si1 + 1)
              quantumBytes enc dbuf 2 src2 si2 (if src2 = [] then none else some si2)
        else
          let (src2, si2) := skipNewlines src (si + 1)
          quantumBytes enc dbuf 3 src2 si2 (if src2 = [] then none else some si2)

/-- Go `(*Encoding).decodeQuantum(dst, src, si)`, `src` being the source from
index `si` on. -/
def decodeQuantum (enc : Encoding) (src : List Nat) (si : Nat) : Quantum :=
  quantumLoop enc 0 [] src si

/-- The loop `for si < len(src)` of Go `(*Encoding).Decode`; `dst` holds the
`n` bytes decoded so far.  (The 8- and 4-byte fast paths of `Decode` write
the same bytes as `decodeQuantum` and fall back on it.)  The first
argument bounds the number of iterations. -/
def decodeLoop (enc : Encoding) : Nat → List Nat → Nat → List Nat → List Nat × Option Nat
  | 0, _, _, dst => (dst, none)
  | _ + 1, [], _, dst => (dst, none)
  | fuel + 1, b :: src, si, dst =>
    let q := decodeQuantum enc (b :: src) si
    if q.err.isSome then (dst ++ q.out, q.err)
    else decodeLoop enc fuel q.rest q.nsi (dst ++ q.out)

/-- Go `(*Encoding).DecodeString`: the decoded bytes `dbuf[:n]` and the
error. -/
def Encoding.DecodeString (enc : Encoding) (s : String) : List Nat × Option Nat :=
  decodeLoop enc (stringBytes s).length (stringBytes s) 0 []

/-- The character `enc.encode[i]`. -/
def encodeChar (i : Nat) : Char := encodeStd.getD i 'A'

/-- Go `(*Encoding).Encode` for `StdEncoding`: three bytes give four
characters, a last group of one or two bytes is padded with `=`. -/
def encodeBytes : List Nat → List Char
  | [] => []
  | [b0] =>
    let val := b0 <<< 16
    [encodeChar (val >>> 18 &&& 0x3f), encodeChar (val >>> 12 &&& 0x3f), '=', '=']
  | [b0, b1] =>
    let val := b0 <<< 16 ||| b1 <<< 8
    [encodeChar (val >>> 18 &&& 0x3f), encodeChar (val >>> 12 &&& 0x3f),
     encodeChar (val >>> 6 &&& 0x3f), '=']
  | b0 :: b1 :: b2 :: src =>
    let val := b0 <<< 16 ||| b1 <<< 8 ||| b2
    encodeChar (val >>> 18 &&& 0x3f) :: encodeChar (val >>> 12 &&& 0x3f) ::
      encodeChar (val >>> 6 &&& 0x3f) :: encodeChar (val &&& 0x3f) :: encodeBytes src

/-- Go `(*Encoding).EncodeToString` for `StdEncoding`. -/
def EncodeToString (src : List Nat) : String := String.mk (encodeBytes src)

/-! ## Messages and `GetAttachments` -/

/-- Modelled from the spec: the declaration of `data.Content` (a MIME part,
package `github.com/mailhog/data`) is not in the repository; §3 of the
specification gives a part a header map (name to ordered values), a raw body
and an ordered sequence of child parts, empty for a leaf.  A header map is a
list of bindings. -/
inductive Content where
  | mk (Headers : List (String × List String)) (Body : String) (Parts : List Content) : Content

/-- The header map of a part. -/
def Content.Headers : Content → List (String × List String)
  | .mk h _ _ => h

/-- The raw body of a part. -/
def Content.Body : Content → String
  | .mk _ b _ => b

/-- The child parts of a part. -/
def Content.Parts : Content → List Content
  | .mk _ _ ps => ps

/-- Modelled from the spec: the declaration of `data.MIMEBody` is not in the
repository; it is the root of the part tree, holding the top-level parts
`Parts`. -/
structure MIMEBody where
  Parts : List Content

/-- Modelled from the spec: the declaration of `data.Message` is not in the
repository; §3 of the specification gives every message a MIME root part,
so `MIME` and the parts below it are taken to be present (no nil pointer).
Of a message the program reads only `MIME`. -/
structure Message where
  MIME : MIMEBody

/-- Indexing a Go `map[string][]string`: the values bound to `key`, the nil
slice when the key is absent. -/
def headerValues (headers : List (String × List String)) (key : String) : List String :=
  (headers.lookup key).getD []

/-- The struct `Attachment` of `main.go`. -/
structure Attachment where
  Filename : String
  Content : List Nat
deriving DecidableEq, Repr

/-- The two results of `GetAttachments`: the pointer to the attachment slice
(`none` for nil) and the error (`none` for nil). -/
abbrev Extraction := Option (List Attachment) × Option Nat

/-- The loop `for _, part := range msg.MIME.Parts` of `GetAttachments`, with
the attachments appended so far. -/
def GetAttachments.loop : List Content → List Attachment → Extraction
  | [], attachments => (some attachments, none)
  | part :: parts, attachments =>
    let disposition := headerValues part.Headers "Content-Disposition"
    let filename := FileNameFromDisposition disposition
    if filename ≠ "" then
      match StdEncoding.DecodeString part.Body with
      | (_, some err) => (none, some err)
      | (data, none) => GetAttachments.loop parts (attachments ++ [⟨filename, data⟩])
    else GetAttachments.loop parts attachments

/-- `MessagesResult.GetAttachments` of `main.go`. -/
def GetAttachments (msg : Message) : Extraction :=
  GetAttachments.loop msg.MIME.Parts []

/-- What `GetAttachments` does with the parts, next to its results:
`examined` lists the parts handed to `FileNameFromDisposition`, `decoded`
those whose body is handed to `DecodeString`, in the order of the calls. -/
structure Walk where
  examined : List Content
  decoded : List Content
  result : Extraction

/-- The loop of `GetAttachments`, recording the calls it makes. -/
def GetAttachments.walk : List Content → List Attachment → Walk
  | [], attachments => ⟨[], [], (some attachments, none)⟩
  | part :: parts, attachments =>
    let disposition := headerValues part.Headers "Content-Disposition"
    let filename := FileNameFromDisposition disposition
    if filename ≠ "" then
      match StdEncoding.DecodeString part.Body with
      | (_, some err) => ⟨[part], [part], (none, some err)⟩
      | (data, none) =>
        let w := GetAttachments.walk parts (attachments ++ [⟨filename, data⟩])
        ⟨part :: w.examined, part :: w.decoded, w.result⟩
    else
      let w := GetAttachments.walk parts attachments
      ⟨part :: w.examined, w.decoded, w.result⟩

mutual
/-- The leaf parts of the tree below a part, as §4.1 of the specification
describes the walker: a part without children is yielded itself, a part
with children only through its descendants, depth first and left to
right. -/
def Content.leaves : Content → List Content
  | .mk h b [] => [.mk h b []]
  | .mk _ _ (c :: cs) => leafParts (c :: cs)
termination_by structural x => x
/-- The leaf parts below a list of sibling parts, in order. -/
def leafParts : List Content → List Content
  | [] => []
  | p :: ps => p.leaves ++ leafParts ps
termination_by structural x => x
end

/-- Whether the body of the part is decoded without error. -/
def decodable (part : Content) : Prop :=
  (StdEncoding.DecodeString part.Body).2 = none

instance (part : Content) : Decidable (decodable part) :=
  inferInstanceAs (Decidable ((StdEncoding.DecodeString part.Body).2 = none))

/-- The file name `GetAttachments` computes for a part. -/
def partFilename (part : Content) : String :=
  FileNameFromDisposition (headerValues part.Headers "Content-Disposition")

/-! ## The message loop of `main` -/

/-- An action of the loop: the call of `GetAttachments` for message
`msgNum`, or the call of `SendAttachToSlack` for one of its attachments. -/
inductive Event where
  | extract (msgNum : Nat) : Event
  | upload (msgNum : Nat) (attach : Attachment) : Event
deriving DecidableEq, Repr

/-- The message an action belongs to. -/
def Event.msgNum : Event → Nat
  | .extract n => n
  | .upload n _ => n

/-- Whether the action is an upload. -/
def Event.isUpload : Event → Bool
  | .extract _ => false
  | .upload _ _ => true

/-- Where the loop stands: `running`, `failed` after `log.Fatalln`, `done`
after the last message. -/
inductive Phase where
  | running : Phase
  | failed : Phase
  | done : Phase
deriving DecidableEq, Repr

/-- A state of the loop `for msgNum, msg := range messages.Items`: the
messages not yet started, the index of the next of them, the attachments of
the current message still to be sent (`none` between two messages) and the
actions so far. -/
structure Driver where
  phase : Phase
  items : List Message
  msgNum : Nat
  attaches : Option (List Attachment)
  trace : List Event

/-- One step of the loop.  `send msgNum attach` tells whether
`SendAttachToSlack` succeeds for the attachment; an error of
`GetAttachments` or of `SendAttachToSlack` ends in `log.Fatalln`. -/
def Driver.step (send : Nat → Attachment → Bool) (d : Driver) : Driver :=
  match d.phase with
  | .failed => d
  | .done => d
  | .running =>
    match d.attaches with
    | none =>
      match d.items with
      | [] => { d with phase := .done }
      | msg :: items =>
        match GetAttachments msg with
        | (some attaches, none) =>
          { d with items := items, attaches := some attaches,
                   trace := d.trace ++ [.extract d.msgNum] }
        | _ =>
          -- `err != nil` (a nil `attaches` without error would end the run as well)
          { d with phase := .failed, items := items,
                   trace := d.trace ++ [.extract d.msgNum] }
    | some [] => { d with msgNum := d.msgNum + 1, attaches := none }
    | some (attach :: attaches) =>
      if send d.msgNum attach then
        { d with attaches := some attaches, trace := d.trace ++ [.upload d.msgNum attach] }
      else
        { d with phase := .failed, trace := d.trace ++ [.upload d.msgNum attach] }

/-- The state before the first message. -/
def Driver.init (items : List Message) : Driver :=
  ⟨.running, items, 0, none, []⟩

/-- The loop run for `n` steps. -/
def Driver.run (send : Nat → Attachment → Bool) : Nat → Driver → Driver
  | 0, d => d
  | n + 1, d => Driver.run send n (Driver.step send d)

/-- Whether `GetAttachments` gives up on the part: it is classified as an
attachment and its body is not decoded. -/
def failsOn (part : Content) : Bool :=
  decide (partFilename part ≠ "") && (StdEncoding.DecodeString part.Body).2.isSome

/-- The attachment `GetAttachments` builds from a part it keeps. -/
def attachmentOf (part : Content) : Attachment :=
  ⟨partFilename part, (StdEncoding.DecodeString part.Body).1⟩

/-- A message whose only top-level part is a container with two leaf
children. -/
def nestedMessage : Message :=
  ⟨⟨[.mk [("Content-Type", ["multipart/mixed"])] ""
      [.mk [("Content-Disposition", ["attachment; filename=\"a.txt\""])] "aGVsbG8=" [],
       .mk [] "plain" []]]⟩⟩

/-- Scenario A of the specification: a part with the disposition
`attachment; filename="a.txt"` and the body `aGVsbG8=`, and a part without
disposition header. -/
def scenarioA : Message :=
  ⟨⟨[.mk [("Content-Disposition", ["attachment; filename=\"a.txt\""])] "aGVsbG8=" [],
     .mk [("Content-Type", ["text/plain"])] "hi" []]⟩⟩

/-- Scenario B of the specification: one part whose `Content-Disposition`
has two duplicate values; its body is not base64. -/
def scenarioB : Message :=
  ⟨⟨[.mk [("Content-Disposition",
      ["attachment; filename=\"a.txt\"", "attachment; filename=\"a.txt\""])] "!!!" []]⟩⟩

/-- A message whose attachment has a malformed base64 body. -/
def malformedMessage : Message :=
  ⟨⟨[.mk [("Content-Disposition", ["attachment; filename=\"b.bin\""])] "a*b" []]⟩⟩

/-- A message whose attachment body `aGVsbG8=` ends with the line break
CR LF of a MIME body. -/
def wrappedMessage : Message :=
  ⟨⟨[.mk [("Content-Disposition", ["attachment; filename=\"a.txt\""])] "aGVsbG8=\r\n" []]⟩⟩

/-- Scenario C of the specification: three messages, the second with a
malformed attachment body. -/
def scenarioC : List Message := [scenarioA, malformedMessage, scenarioA]

/-! ## Properties of `GetAttachments` -/

theorem walk_result (parts : List Content) (acc : List Attachment) :
    (GetAttachments.walk parts acc).result = GetAttachments.loop parts acc := by
  induction parts generalizing acc with
  | nil => rfl
  | cons part parts ih =>
    simp only [GetAttachments.walk, GetAttachments.loop]
    split
    · split
      · rfl
      · exact ih _
    · exact ih _

theorem loop_of_ok (parts : List Content) (acc : List Attachment)
    (h : ∀ p ∈ parts, partFilename p ≠ "" → decodable p) :
    GetAttachments.loop parts acc =
      (some (acc ++ (parts.filter fun p => decide (partFilename p ≠ "")).map attachmentOf),
        none) := by
  induction parts generalizing acc with
  | nil => simp [GetAttachments.loop]
  | cons part parts ih =>
    have hrest : ∀ p ∈ parts, partFilename p ≠ "" → decodable p :=
      fun p hp => h p (List.mem_cons_of_mem _ hp)
    by_cases hf : partFilename part = ""
    · have hf' : FileNameFromDisposition (headerValues part.Headers "Content-Disposition") = "" := hf
      simp only [GetAttachments.loop, hf', ne_eq, not_true_eq_false, if_false]
      rw [ih acc hrest]
      simp [List.filter_cons, hf]
    · have hd : (StdEncoding.DecodeString part.Body).2 = none :=
        h part (List.mem_cons_self _ _) hf
      have hf' : FileNameFromDisposition (headerValues part.Headers "Content-Disposition") ≠ "" := hf
      simp only [GetAttachments.loop, ne_eq, hf', not_false_eq_true, if_true]
      rcases hdec : StdEncoding.DecodeString part.Body with ⟨data, err⟩
      rw [hdec] at hd
      simp only at hd
      subst hd
      simp only
      rw [ih _ hrest]
      have hfil : (part :: parts).filter (fun p => decide (partFilename p ≠ "")) =
          part :: parts.filter (fun p => decide (partFilename p ≠ "")) := by
        simp [List.filter_cons, hf]
      rw [hfil]
      simp [attachmentOf, hdec, partFilename]

theorem loop_err_iff (parts : List Content) (acc : List Attachment) :
    (GetAttachments.loop parts acc).2 ≠ none ↔ ∃ p ∈ parts, failsOn p = true := by
  induction parts generalizing acc with
  | nil => simp [GetAttachments.loop]
  | cons part parts ih =>
    by_cases hf : partFilename part = ""
    · have hf' : FileNameFromDisposition (headerValues part.Headers "Content-Disposition") = "" := hf
      simp only [GetAttachments.loop, hf', ne_eq, not_true_eq_false, if_false]
      rw [← ne_eq, ih acc]
      simp [failsOn, hf]
    · have hf' : FileNameFromDisposition (headerValues part.Headers "Content-Disposition") ≠ "" := hf
      simp only [GetAttachments.loop, ne_eq, hf', not_false_eq_true, if_true]
      rcases hdec : StdEncoding.DecodeString part.Body with ⟨data, err⟩
      cases err with
      | none =>
        simp only
        rw [← ne_eq, ih _]
        simp [failsOn, hf, hdec]
      | some e =>
        simp [failsOn, hf, hdec]

theorem loop_err_nil (parts : List Content) (acc : List Attachment)
    (h : (GetAttachments.loop parts acc).2 ≠ none) :
    (GetAttachments.loop parts acc).1 = none := by
  induction parts generalizing acc with
  | nil => simp [GetAttachments.loop] at h
  | cons part parts ih =>
    simp only [GetAttachments.loop] at h ⊢
    split
    · rename_i hf
      rw [if_pos hf] at h
      split
      · rfl
      · rename_i data hdec
        rw [hdec] at h
        exact ih _ h
    · rename_i hf
      rw [if_neg hf] at h
      exact ih _ h

theorem walk_examined (parts : List Content) (acc : List Attachment) :
    (GetAttachments.walk parts acc).examined =
      parts.takeWhile (fun p => !failsOn p) ++ (parts.dropWhile fun p => !failsOn p).take 1 := by
  induction parts generalizing acc with
  | nil => simp [GetAttachments.walk]
  | cons part parts ih =>
    by_cases hf : partFilename part = ""
    · have hf' : FileNameFromDisposition (headerValues part.Headers "Content-Disposition") = "" := hf
      have hfail : failsOn part = false := by simp [failsOn, hf]
      simp only [GetAttachments.walk, hf', ne_eq, not_true_eq_false, if_false]
      rw [ih acc]
      simp [List.takeWhile_cons, List.dropWhile_cons, hfail]
    · have hf' : FileNameFromDisposition (headerValues part.Headers "Content-Disposition") ≠ "" := hf
      simp only [GetAttachments.walk, ne_eq, hf', not_false_eq_true, if_true]
      rcases hdec : StdEncoding.DecodeString part.Body with ⟨data, err⟩
      cases err with
      | none =>
        have hfail : failsOn part = false := by simp [failsOn, hdec]
        simp only
        rw [ih _]
        simp [List.takeWhile_cons, List.dropWhile_cons, hfail]
      | some e =>
        have hfail : failsOn part = true := by simp [failsOn, hf, hdec]
        simp [List.takeWhile_cons, List.dropWhile_cons, hfail]

theorem walk_decoded (parts : List Content) (acc : List Attachment) :
    ∀ p ∈ (GetAttachments.walk parts acc).decoded, partFilename p ≠ "" := by
  induction parts generalizing acc with
  | nil => simp [GetAttachments.walk]
  | cons part parts ih =>
    by_cases hf : partFilename part = ""
    · have hf' : FileNameFromDisposition (headerValues part.Headers "Content-Disposition") = "" := hf
      simp only [GetAttachments.walk, hf', ne_eq, not_true_eq_false, if_false]
      exact ih acc
    · have hf' : FileNameFromDisposition (headerValues part.Headers "Content-Disposition") ≠ "" := hf
      simp only [GetAttachments.walk, ne_eq, hf', not_false_eq_true, if_true]
      rcases hdec : StdEncoding.DecodeString part.Body with ⟨data, err⟩
      cases err with
      | none =>
        intro p hp
        simp only [List.mem_cons] at hp
        rcases hp with rfl | hp
        · exact hf
        · exact ih _ p hp
      | some e =>
        intro p hp
        simp only [List.mem_singleton] at hp
        subst hp
        exact hf

theorem loop_filter (parts : List Content) (acc : List Attachment) :
    GetAttachments.loop parts acc =
      GetAttachments.loop (parts.filter fun p => decide (partFilename p ≠ "")) acc := by
  induction parts generalizing acc with
  | nil => rfl
  | cons part parts ih =>
    by_cases hf : partFilename part = ""
    · have hf' : FileNameFromDisposition (headerValues part.Headers "Content-Disposition") = "" := hf
      have hfil : (part :: parts).filter (fun p => decide (partFilename p ≠ "")) =
          parts.filter (fun p => decide (partFilename p ≠ "")) := by
        simp [List.filter_cons, hf]
      rw [hfil, ← ih acc]
      simp only [GetAttachments.loop, hf', ne_eq, not_true_eq_false, if_false]
    · have hf' : FileNameFromDisposition (headerValues part.Headers "Content-Disposition") ≠ "" := hf
      have hfil : (part :: parts).filter (fun p => decide (partFilename p ≠ "")) =
          part :: parts.filter (fun p => decide (partFilename p ≠ "")) := by
        simp [List.filter_cons, hf]
      rw [hfil]
      simp only [GetAttachments.loop, ne_eq, hf', not_false_eq_true, if_true]
      split
      · rfl
      · exact ih _

/-! ## The claims about `GetAttachments` -/

/-- C1, as stated, fails: on `nestedMessage` the parts `GetAttachments`
examines are not the leaf parts of the tree (it examines the one container,
the tree has two leaves). -/
theorem C1_examined_not_leaves :
    (GetAttachments.walk nestedMessage.MIME.Parts []).examined
        ≠ leafParts nestedMessage.MIME.Parts ∧
      ∃ p ∈ (GetAttachments.walk nestedMessage.MIME.Parts []).examined, p.Parts ≠ [] := by
  refine ⟨fun h => absurd (congrArg List.length h) (by decide), ?_⟩
  refine ⟨_, List.mem_cons_self _ _, ?_⟩
  simp [Content.Parts]

/-- C1, amended: `GetAttachments` examines the top-level parts
`msg.MIME.Parts` and nothing else, in order, whether or not they have
children: its result is that of the recorded walk, the examined parts are
the top-level parts up to and including the first one that is classified as
an attachment and fails to decode, and all of them when no part fails. -/
theorem C1_examines_top_level_parts (msg : Message) :
    (GetAttachments.walk msg.MIME.Parts []).result = GetAttachments msg ∧
      (GetAttachments.walk msg.MIME.Parts []).examined =
        msg.MIME.Parts.takeWhile (fun p => !failsOn p) ++
          (msg.MIME.Parts.dropWhile fun p => !failsOn p).take 1 ∧
      ((GetAttachments msg).2 = none →
        (GetAttachments.walk msg.MIME.Parts []).examined = msg.MIME.Parts) := by
  refine ⟨walk_result _ _, walk_examined _ _, fun h => ?_⟩
  have hall : ∀ p ∈ msg.MIME.Parts, (!failsOn p) = true := by
    intro p hp
    by_contra hc
    have hfp : failsOn p = true := by simpa using hc
    exact (loop_err_iff msg.MIME.Parts []).mpr ⟨p, hp, hfp⟩ h
  rw [walk_examined, List.takeWhile_eq_self_iff.mpr hall, List.dropWhile_eq_nil_iff.mpr hall]
  simp

/-- C1, amended, at `nestedMessage`: the container is the one part
examined. -/
theorem C1_examines_top_level_parts_witness :
    (GetAttachments nestedMessage).2 = none ∧
      (GetAttachments.walk nestedMessage.MIME.Parts []).examined = nestedMessage.MIME.Parts :=
  ⟨by decide, (C1_examines_top_level_parts nestedMessage).2.2 (by decide)⟩

/-- C3: for a list of `Content-Disposition` values that is empty (the nil
slice of an absent header included) or has two or more elements,
`FileNameFromDisposition` returns the empty string. -/
theorem C3_not_exactly_one_value (disposition : List String)
    (h : disposition.length = 0 ∨ 2 ≤ disposition.length) :
    FileNameFromDisposition disposition = "" := by
  unfold FileNameFromDisposition
  rcases h with h | h
  · simp [h]
  · have h1 : disposition.length ≠ 1 := by omega
    simp [h1]

/-- C3 at two well-formed duplicate values, and at the values of an absent
header. -/
theorem C3_not_exactly_one_value_witness :
    FileNameFromDisposition ["attachment; filename=\"a.txt\"", "attachment; filename=\"a.txt\""]
        = "" ∧
      FileNameFromDisposition (headerValues [] "Content-Disposition") = "" :=
  ⟨C3_not_exactly_one_value _ (Or.inr (by decide)),
   C3_not_exactly_one_value _ (Or.inl (by decide))⟩

/-- C6: when every part classified as an attachment has a decodable body,
`GetAttachments` succeeds and returns, in the order of the parts, one
attachment for each part whose file name is not empty, made of that file
name and the decoded body; nothing is merged or renamed. -/
theorem C6_attachments_in_part_order (msg : Message)
    (h : ∀ p ∈ msg.MIME.Parts, partFilename p ≠ "" → decodable p) :
    GetAttachments msg =
      (some ((msg.MIME.Parts.filter fun p => decide (partFilename p ≠ "")).map fun p =>
          (⟨FileNameFromDisposition (headerValues p.Headers "Content-Disposition"),
            (StdEncoding.DecodeString p.Body).1⟩ : Attachment)),
        none) := by
  have := loop_of_ok msg.MIME.Parts [] h
  simpa [GetAttachments, attachmentOf, partFilename] using this

/-- C6 on scenario A: exactly one attachment, `a.txt` with the bytes of
`hello`. -/
theorem C6_attachments_in_part_order_witness :
    GetAttachments scenarioA = (some [⟨"a.txt", [104, 101, 108, 108, 111]⟩], none) :=
  (C6_attachments_in_part_order scenarioA (by decide)).trans (by decide)

/-- C7: `GetAttachments` returns an error exactly when some part is
classified as an attachment and its body fails to decode, and then it
returns the nil attachment list. -/
theorem C7_all_or_nothing (msg : Message) :
    ((GetAttachments msg).2 ≠ none ↔
        ∃ p ∈ msg.MIME.Parts, partFilename p ≠ "" ∧ ¬ decodable p) ∧
      ((∃ p ∈ msg.MIME.Parts, partFilename p ≠ "" ∧ ¬ decodable p) →
        (GetAttachments msg).1 = none ∧ (GetAttachments msg).2 ≠ none) := by
  have hiff : (GetAttachments msg).2 ≠ none ↔
      ∃ p ∈ msg.MIME.Parts, partFilename p ≠ "" ∧ ¬ decodable p := by
    rw [GetAttachments, loop_err_iff]
    constructor
    · rintro ⟨p, hp, hf⟩
      refine ⟨p, hp, ?_⟩
      simpa [failsOn, decodable, Option.isSome_iff_ne_none] using hf
    · rintro ⟨p, hp, hf⟩
      refine ⟨p, hp, ?_⟩
      simpa [failsOn, decodable, Option.isSome_iff_ne_none] using hf
  exact ⟨hiff, fun h => ⟨loop_err_nil _ _ (hiff.mpr h), hiff.mpr h⟩⟩

/-- C7 on a message whose first attachment decodes and whose second does
not: no attachment list comes back. -/
theorem C7_all_or_nothing_witness :
    (GetAttachments ⟨⟨scenarioA.MIME.Parts ++ malformedMessage.MIME.Parts⟩⟩).1 = none ∧
      (GetAttachments ⟨⟨scenarioA.MIME.Parts ++ malformedMessage.MIME.Parts⟩⟩).2 ≠ none :=
  (C7_all_or_nothing ⟨⟨scenarioA.MIME.Parts ++ malformedMessage.MIME.Parts⟩⟩).2
    ⟨.mk [("Content-Disposition", ["attachment; filename=\"b.bin\""])] "a*b" [],
      by simp [scenarioA, malformedMessage], by decide, by decide⟩

/-- C8: a part for which `FileNameFromDisposition` returns the empty string
has no effect on `GetAttachments`: the result is that of the message
without such parts, whatever their bodies; the body of such a part is never
handed to the decoder; and a message made only of such parts gives success
with no attachment. -/
theorem C8_classification_miss (msg : Message) :
    GetAttachments msg =
        GetAttachments ⟨⟨msg.MIME.Parts.filter fun p => decide (partFilename p ≠ "")⟩⟩ ∧
      (∀ p ∈ (GetAttachments.walk msg.MIME.Parts []).decoded, partFilename p ≠ "") ∧
      ((∀ p ∈ msg.MIME.Parts, partFilename p = "") → GetAttachments msg = (some [], none)) := by
  refine ⟨loop_filter _ _, walk_decoded _ _, fun h => ?_⟩
  have := loop_of_ok msg.MIME.Parts [] (fun p hp hf => absurd (h p hp) hf)
  have hfil : (msg.MIME.Parts.filter fun p => decide (partFilename p ≠ "")) = [] := by
    simp only [List.filter_eq_nil_iff]
    intro p hp
    simp [h p hp]
  rw [GetAttachments, this, hfil]
  rfl

/-- C8 on scenario B: two duplicate disposition values and a malformed
body give success with no attachment. -/
theorem C8_classification_miss_witness :
    GetAttachments scenarioB = (some [], none) :=
  (C8_classification_miss scenarioB).2.2 (by decide)

/-! ## The message loop -/

theorem run_add (send : Nat → Attachment → Bool) (a b : Nat) (d : Driver) :
    Driver.run send (a + b) d = Driver.run send b (Driver.run send a d) := by
  induction a generalizing d with
  | zero => simp [Driver.run]
  | succ a ih =>
    rw [Nat.add_right_comm]
    simp only [Driver.run]
    exact ih _

theorem run_failed (send : Nat → Attachment → Bool) (n : Nat) (d : Driver)
    (h : d.phase = .failed) : Driver.run send n d = d := by
  induction n with
  | zero => rfl
  | succ n ih =>
    have hs : Driver.step send d = d := by
      unfold Driver.step
      rw [h]
    rw [Driver.run, hs, ih]

theorem run_uploads (send : Nat → Attachment → Bool) (items : List Message) (n : Nat)
    (attaches : List Attachment) (tr : List Event)
    (h : ∀ a ∈ attaches, send n a = true) :
    Driver.run send (attaches.length + 1) ⟨.running, items, n, some attaches, tr⟩ =
      ⟨.running, items, n + 1, none, tr ++ attaches.map (Event.upload n)⟩ := by
  induction attaches generalizing tr with
  | nil => simp [Driver.run, Driver.step]
  | cons a attaches ih =>
    have ha : send n a = true := h a (List.mem_cons_self _ _)
    have hrest : ∀ b ∈ attaches, send n b = true := fun b hb => h b (List.mem_cons_of_mem _ hb)
    have hstep : Driver.step send ⟨.running, items, n, some (a :: attaches), tr⟩ =
        ⟨.running, items, n, some attaches, tr ++ [Event.upload n a]⟩ := by
      simp [Driver.step, ha]
    rw [List.length_cons, Driver.run, hstep, ih _ hrest]
    simp

theorem run_message (send : Nat → Attachment → Bool) (msg : Message) (items : List Message)
    (n : Nat) (attaches : List Attachment) (tr : List Event)
    (hget : GetAttachments msg = (some attaches, none))
    (h : ∀ a ∈ attaches, send n a = true) :
    Driver.run send (attaches.length + 2) ⟨.running, msg :: items, n, none, tr⟩ =
      ⟨.running, items, n + 1, none,
        tr ++ Event.extract n :: attaches.map (Event.upload n)⟩ := by
  have hstep : Driver.step send ⟨.running, msg :: items, n, none, tr⟩ =
      ⟨.running, items, n, some attaches, tr ++ [Event.extract n]⟩ := by
    simp [Driver.step, hget]
  rw [show attaches.length + 2 = (attaches.length + 1) + 1 from rfl, Driver.run, hstep,
    run_uploads send items n attaches _ h]
  simp

theorem step_extract_fails (send : Nat → Attachment → Bool) (msg : Message)
    (items : List Message) (n : Nat) (tr : List Event)
    (hget : (GetAttachments msg).2 ≠ none) :
    Driver.step send ⟨.running, msg :: items, n, none, tr⟩ =
      ⟨.failed, items, n, none, tr ++ [Event.extract n]⟩ := by
  have h1 : (GetAttachments msg).1 = none := loop_err_nil _ _ hget
  rcases hg : GetAttachments msg with ⟨a, e⟩
  rw [hg] at h1 hget
  simp only at h1 hget
  subst h1
  simp [Driver.step, hg]

/-- The run up to the first failing extraction: the messages before `k`
are processed in order, then `GetAttachments` for message `k` ends the
run. -/
theorem run_until_failure (send : Nat → Attachment → Bool) (k : Nat) :
    ∀ (items : List Message) (n0 : Nat) (tr : List Event),
      (∃ msg, items[k]? = some msg ∧ (GetAttachments msg).2 ≠ none) →
      (∀ i < k, ∀ msg, items[i]? = some msg →
        ∃ attaches, GetAttachments msg = (some attaches, none) ∧
          ∀ a ∈ attaches, send (n0 + i) a = true) →
      ∃ steps more, Driver.run send steps ⟨.running, items, n0, none, tr⟩ =
          ⟨.failed, items.drop (k + 1), n0 + k, none, tr ++ more ++ [Event.extract (n0 + k)]⟩ ∧
        ∀ e ∈ more, e.msgNum < n0 + k := by
  induction k with
  | zero =>
    intro items n0 tr hfail _
    rcases hfail with ⟨msg, hmsg, hget⟩
    cases items with
    | nil => simp at hmsg
    | cons m items =>
      simp only [List.getElem?_cons_zero, Option.some.injEq] at hmsg
      subst hmsg
      refine ⟨1, [], ?_, by simp⟩
      simp [Driver.run, step_extract_fails send m items n0 tr hget]
  | succ k ih =>
    intro items n0 tr hfail hok
    cases items with
    | nil =>
      rcases hfail with ⟨msg, hmsg, _⟩
      simp at hmsg
    | cons m items =>
      rcases hok 0 (Nat.succ_pos k) m (by simp) with ⟨attaches, hget, hsend⟩
      have hfail' : ∃ msg, items[k]? = some msg ∧ (GetAttachments msg).2 ≠ none := by
        simpa using hfail
      have hok' : ∀ i < k, ∀ msg, items[i]? = some msg →
          ∃ attaches, GetAttachments msg = (some attaches, none) ∧
            ∀ a ∈ attaches, send (n0 + 1 + i) a = true := by
        intro i hi msg hmsg
        have := hok (i + 1) (by omega) msg (by simpa using hmsg)
        rwa [show n0 + (i + 1) = n0 + 1 + i by omega] at this
      rcases ih items (n0 + 1) (tr ++ Event.extract n0 :: attaches.map (Event.upload n0))
        hfail' hok' with ⟨steps, more, hrun, hmore⟩
      refine ⟨(attaches.length + 2) + steps,
        Event.extract n0 :: attaches.map (Event.upload n0) ++ more, ?_, ?_⟩
      · rw [run_add, run_message send m items n0 attaches tr hget (by simpa using hsend), hrun]
        simp [Nat.add_assoc, Nat.add_comm 1 k]
      · intro e he
        simp only [List.cons_append, List.mem_cons, List.mem_append, List.mem_map] at he
        rcases he with rfl | ⟨a, _, rfl⟩ | he
        · simp [Event.msgNum]
        · simp [Event.msgNum]
        · have := hmore e he
          omega

/-- C9: when `GetAttachments` fails on message `k` of the batch and every
earlier message is extracted and has all its attachments sent without
error, the loop of `main` reaches the state `failed` after finitely many
steps and stays there, and its trace holds no action for a message after
`k` and no upload for message `k`. -/
theorem C9_run_aborts_at_failing_message (send : Nat → Attachment → Bool)
    (items : List Message) (k : Nat)
    (hfail : ∃ msg, items[k]? = some msg ∧ (GetAttachments msg).2 ≠ none)
    (hearlier : ∀ i < k, ∀ msg, items[i]? = some msg →
      ∃ attaches, GetAttachments msg = (some attaches, none) ∧
        ∀ a ∈ attaches, send i a = true) :
    ∃ steps, ∀ n, steps ≤ n →
      (Driver.run send n (Driver.init items)).phase = .failed ∧
      ∀ e ∈ (Driver.run send n (Driver.init items)).trace,
        e.msgNum ≤ k ∧ (e.msgNum = k → e.isUpload = false) := by
  rcases run_until_failure send k items 0 [] hfail
    (by simpa using hearlier) with ⟨steps, more, hrun, hmore⟩
  refine ⟨steps, fun n hn => ?_⟩
  obtain ⟨m, rfl⟩ : ∃ m, n = steps + m := ⟨n - steps, by omega⟩
  rw [Driver.init, run_add, hrun, run_failed send m _ rfl]
  refine ⟨rfl, fun e he => ?_⟩
  simp only [List.nil_append, Nat.zero_add, List.mem_append, List.mem_singleton] at he
  rcases he with he | rfl
  · have := hmore e he
    constructor <;> intros <;> omega
  · simp [Event.msgNum, Event.isUpload]

/-- C9 on scenario C, every upload succeeding: the run fails at the second
message and nothing of the third message is processed. -/
theorem C9_run_aborts_at_failing_message_witness :
    ∃ steps, ∀ n, steps ≤ n →
      (Driver.run (fun _ _ => true) n (Driver.init scenarioC)).phase = .failed ∧
      ∀ e ∈ (Driver.run (fun _ _ => true) n (Driver.init scenarioC)).trace,
        e.msgNum ≤ 1 ∧ (e.msgNum = 1 → e.isUpload = false) :=
  C9_run_aborts_at_failing_message (fun _ _ => true) scenarioC 1
    ⟨malformedMessage, rfl, by decide⟩
    (fun i hi msg hmsg => by
      obtain rfl : i = 0 := by omega
      simp only [scenarioC, List.getElem?_cons_zero, Option.some.injEq] at hmsg
      subst hmsg
      exact ⟨[⟨"a.txt", [104, 101, 108, 108, 111]⟩], by decide, fun _ _ => rfl⟩)

/-! ## Properties of the matcher -/

theorem allMatches_head (r : Regexp) (fuel : Nat) (prev : Option Char) (input : List Char) :
    (r.allMatches (fuel + 1) none prev input).head? = r.search prev input := by
  unfold Regexp.allMatches
  cases hs : r.search prev input with
  | none => rfl
  | some m =>
    simp only
    split
    · simp
    · simp

/-- On a single value the file name is group 1 of the leftmost-first match,
and empty without a match. -/
theorem fileName_single (disp : String) :
    FileNameFromDisposition [disp] =
      match dispositionRegexp.search none disp.data with
      | some m => String.mk (m.stop.cap.getD [])
      | none => "" := by
  have hhead := allMatches_head dispositionRegexp disp.data.length none disp.data
  unfold FileNameFromDisposition Regexp.MatchString Regexp.FindAllStringSubmatch
  cases hs : dispositionRegexp.search none disp.data with
  | none => simp [hs]
  | some m =>
    rw [hs] at hhead
    cases hall : dispositionRegexp.allMatches (disp.data.length + 1) none none disp.data with
    | nil => rw [hall] at hhead; simp at hhead
    | cons m' ms =>
      rw [hall] at hhead
      simp only [List.head?_cons, Option.some.injEq] at hhead
      subst hhead
      simp only [List.headD_cons, hs, hall, List.map_cons, Match.submatch]
      simp

theorem search_mem (r : Regexp) (prev : Option Char) (input : List Char) (m : Match)
    (h : r.search prev input = some m) :
    ∃ prev', m.stop ∈ r.run ⟨prev', m.start, none⟩ := by
  induction input generalizing prev with
  | nil =>
    unfold Regexp.search at h
    split at h
    · rename_i u us hrun
      simp only [Option.some.injEq] at h
      subst h
      exact ⟨prev, by rw [hrun]; exact List.mem_cons_self _ _⟩
    · simp at h
  | cons c cs ih =>
    unfold Regexp.search at h
    split at h
    · rename_i u us hrun
      simp only [Option.some.injEq] at h
      subst h
      exact ⟨prev, by rw [hrun]; exact List.mem_cons_self _ _⟩
    · exact ih _ h

theorem starRun_mem (p : Char → Bool) (cap : Option (List Char)) (prev : Option Char)
    (xs : List Char) (u : Thread) (h : u ∈ starRun p cap prev xs) :
    u.cap = cap ∧ ∃ w, xs = w ++ u.rest ∧ ∀ c ∈ w, p c = true := by
  induction xs generalizing prev with
  | nil =>
    simp only [starRun, List.mem_singleton] at h
    subst h
    exact ⟨rfl, [], rfl, by simp⟩
  | cons c cs ih =>
    unfold starRun at h
    split at h
    · rename_i hp
      simp only [List.mem_append, List.mem_singleton] at h
      rcases h with h | h
      · rcases ih _ h with ⟨hc, w, hw, hall⟩
        refine ⟨hc, c :: w, by rw [hw]; rfl, ?_⟩
        intro d hd
        simp only [List.mem_cons] at hd
        rcases hd with rfl | hd
        · exact hp
        · exact hall d hd
      · subst h
        exact ⟨rfl, [], rfl, by simp⟩
    · simp only [List.mem_singleton] at h
      subst h
      exact ⟨rfl, [], rfl, by simp⟩

theorem capture_plus_mem (p : Char → Bool) (t u : Thread)
    (h : u ∈ (Regexp.capture (Regexp.plus p)).run t) :
    ∃ w, u.cap = some w ∧ ∀ c ∈ w, p c = true := by
  simp only [Regexp.run, Regexp.plus, List.mem_map, List.mem_flatMap] at h
  rcases h with ⟨v, ⟨t1, ht1, hv⟩, rfl⟩
  cases hrest : t.rest with
  | nil => rw [hrest] at ht1; simp at ht1
  | cons d ds =>
    rw [hrest] at ht1
    simp only at ht1
    split at ht1
    · rename_i hd
      simp only [List.mem_singleton] at ht1
      subst ht1
      rcases starRun_mem p _ _ _ v hv with ⟨_, w, hw, hall⟩
      simp only at hw
      refine ⟨d :: w, ?_, ?_⟩
      · simp only [Option.some.injEq]
        rw [hw]
        have hlen : (d :: (w ++ v.rest)).length - v.rest.length = (d :: w).length := by
          simp only [List.length_cons, List.length_append]
          omega
        rw [hlen, ← List.cons_append]
        exact List.take_left' rfl
      · intro c hc
        simp only [List.mem_cons] at hc
        rcases hc with rfl | hc
        · exact hd
        · exact hall c hc
    · simp at ht1

theorem quest_lit_eol_cap (c : Char) (t u : Thread)
    (h : u ∈ (Regexp.cat (Regexp.quest (.lit c)) .eol).run t) : u.cap = t.cap := by
  simp only [Regexp.run, Regexp.quest, List.mem_flatMap, List.mem_append,
    List.mem_singleton] at h
  rcases h with ⟨v, hv, hu⟩
  have hvc : v.cap = t.cap := by
    rcases hv with hv | rfl
    · cases hrest : t.rest with
      | nil => rw [hrest] at hv; simp at hv
      | cons d ds =>
        rw [hrest] at hv
        simp only at hv
        split at hv
        · simp only [List.mem_singleton] at hv
          subst hv
          rfl
        · simp at hv
    · rfl
  split at hu
  · simp only [List.mem_singleton] at hu
    subst hu
    exact hvc
  · simp at hu

/-- Every thread that ends a match of the pattern has group 1 set to a text
without double quote. -/
theorem disposition_cap (t u : Thread) (h : u ∈ dispositionRegexp.run t) :
    ∃ w, u.cap = some w ∧ ∀ c ∈ w, notQuote c = true := by
  unfold dispositionRegexp at h
  simp only [Regexp.run.eq_8, List.mem_flatMap] at h
  rcases h with ⟨_, _, _, _, _, _, _, _, t5, _, t6, h6, hu⟩
  rcases capture_plus_mem notQuote t5 t6 h6 with ⟨w, hw, hall⟩
  have := quest_lit_eol_cap '"' t6 u (by simpa only [Regexp.run.eq_8, List.mem_flatMap] using hu)
  exact ⟨w, this ▸ hw, hall⟩

/-- C10: the file name returned by `FileNameFromDisposition` contains no
double quote, whatever the list of values. -/
theorem C10_filename_has_no_quote (disposition : List String) :
    '"' ∉ (FileNameFromDisposition disposition).data := by
  match disposition with
  | [] => simp [FileNameFromDisposition]
  | _ :: _ :: _ => simp [FileNameFromDisposition]
  | [disp] =>
    rw [fileName_single]
    cases hs : dispositionRegexp.search none disp.data with
    | none => simp
    | some m =>
      rcases search_mem _ _ _ _ hs with ⟨prev', hmem⟩
      rcases disposition_cap _ _ hmem with ⟨w, hw, hall⟩
      simp only [hw, Option.getD_some]
      intro hq
      have := hall _ hq
      simp [notQuote] at this

theorem cat_head (a b : Regexp) (t t1 u : Thread) (ts : List Thread)
    (ha : a.run t = t1 :: ts) (hb : (b.run t1).head? = some u) :
    ((Regexp.cat a b).run t).head? = some u := by
  cases hrun : b.run t1 with
  | nil => rw [hrun] at hb; simp at hb
  | cons v vs =>
    rw [hrun] at hb
    simp only [List.head?_cons, Option.some.injEq] at hb
    subst hb
    simp [Regexp.run, ha, List.flatMap_cons, hrun]

theorem lits_cat (w : List Char) (r : Regexp) (prev : Option Char) (rest : List Char)
    (cap : Option (List Char)) :
    ∃ prev', (Regexp.cat (Regexp.lits w) r).run ⟨prev, w ++ rest, cap⟩ =
      r.run ⟨prev', rest, cap⟩ := by
  induction w generalizing prev with
  | nil => exact ⟨prev, by simp [Regexp.run, Regexp.lits]⟩
  | cons c cs ih =>
    rcases ih (some c) with ⟨prev', h⟩
    refine ⟨prev', ?_⟩
    simp only [Regexp.run, Regexp.lits, List.cons_append, if_true, List.flatMap_cons,
      List.flatMap_nil, List.append_nil] at h ⊢
    exact h

theorem starRun_head (p : Char → Bool) (cap : Option (List Char)) (prev : Option Char)
    (w rest : List Char) (hw : ∀ c ∈ w, p c = true) (hrest : ∀ q ∈ rest.head?, p q = false) :
    ∃ prev' ts, starRun p cap prev (w ++ rest) = ⟨prev', rest, cap⟩ :: ts := by
  induction w generalizing prev with
  | nil =>
    cases rest with
    | nil => exact ⟨prev, [], rfl⟩
    | cons q qs =>
      have hq : p q = false := hrest q (by simp)
      exact ⟨prev, [], by simp [starRun, hq]⟩
  | cons c cs ih =>
    have hc : p c = true := hw c (List.mem_cons_self _ _)
    rcases ih (some c) (fun d hd => hw d (List.mem_cons_of_mem _ hd)) with ⟨prev', ts, h⟩
    exact ⟨prev', ts ++ [⟨prev, c :: (cs ++ rest), cap⟩], by simp [starRun, hc, h]⟩

theorem capture_plus_head (p : Char → Bool) (cap : Option (List Char)) (prev : Option Char)
    (x : Char) (xs rest : List Char) (hw : ∀ c ∈ x :: xs, p c = true)
    (hrest : ∀ q ∈ rest.head?, p q = false) :
    ∃ prev' ts, (Regexp.capture (Regexp.plus p)).run ⟨prev, x :: xs ++ rest, cap⟩ =
      ⟨prev', rest, some (x :: xs)⟩ :: ts := by
  have hx : p x = true := hw x (List.mem_cons_self _ _)
  rcases starRun_head p cap (some x) xs rest (fun d hd => hw d (List.mem_cons_of_mem _ hd))
    hrest with ⟨prev', ts, h⟩
  refine ⟨prev', ts.map fun u =>
    { u with cap := some ((x :: (xs ++ rest)).take ((x :: (xs ++ rest)).length - u.rest.length)) },
    ?_⟩
  simp only [Regexp.run, Regexp.plus, List.cons_append, hx, if_true, List.flatMap_cons,
    List.flatMap_nil, List.append_nil, h, List.map_cons]
  congr 1
  simp only [Thread.mk.injEq, Option.some.injEq, true_and]
  have hlen : (x :: (xs ++ rest)).length - rest.length = (x :: xs).length := by
    simp only [List.length_cons, List.length_append]
    omega
  rw [hlen, ← List.cons_append]
  exact List.take_left' rfl

theorem tail_head (prev : Option Char) (cap : Option (List Char)) (rest : List Char)
    (h : rest = [] ∨ rest = ['"']) :
    ∃ u, ((Regexp.cat (Regexp.quest (.lit '"')) .eol).run ⟨prev, rest, cap⟩).head? = some u ∧
      u.cap = cap := by
  rcases h with rfl | rfl
  · exact ⟨⟨prev, [], cap⟩, by simp [Regexp.run, Regexp.quest], rfl⟩
  · exact ⟨⟨some '"', [], cap⟩, by simp [Regexp.run, Regexp.quest], rfl⟩

theorem group_head (prev : Option Char) (x : Char) (xs rest : List Char)
    (hw : ∀ c ∈ x :: xs, notQuote c = true) (h : rest = [] ∨ rest = ['"']) :
    ∃ u, ((Regexp.cat (.capture (Regexp.plus notQuote))
        (.cat (Regexp.quest (.lit '"')) .eol)).run ⟨prev, x :: xs ++ rest, none⟩).head? = some u ∧
      u.cap = some (x :: xs) := by
  have hrest : ∀ q ∈ rest.head?, notQuote q = false := by
    rcases h with rfl | rfl
    · simp
    · simp [notQuote]
  rcases capture_plus_head notQuote none prev x xs rest hw hrest with ⟨prev', ts, hcap⟩
  rcases tail_head prev' (some (x :: xs)) rest h with ⟨u, hu, hucap⟩
  exact ⟨u, cat_head _ _ _ _ _ _ hcap hu, hucap⟩

theorem bol_cat (r : Regexp) (rest : List Char) (cap : Option (List Char)) :
    (Regexp.cat .bol r).run ⟨none, rest, cap⟩ = r.run ⟨none, rest, cap⟩ := by
  simp [Regexp.run]

theorem lits_cat_head (w : List Char) (r : Regexp) (rest X : List Char)
    (h : ∀ prev, ∃ u, (r.run ⟨prev, rest, none⟩).head? = some u ∧ u.cap = some X) :
    ∀ prev, ∃ u, ((Regexp.cat (Regexp.lits w) r).run ⟨prev, w ++ rest, none⟩).head? = some u ∧
      u.cap = some X := by
  intro prev
  rcases lits_cat w r prev rest none with ⟨prev', hrun⟩
  rw [hrun]
  exact h prev'

theorem star_cat_head (p : Char → Bool) (w : List Char) (r : Regexp) (rest X : List Char)
    (hw : ∀ c ∈ w, p c = true) (hrest : ∀ q ∈ rest.head?, p q = false)
    (h : ∀ prev, ∃ u, (r.run ⟨prev, rest, none⟩).head? = some u ∧ u.cap = some X) :
    ∀ prev, ∃ u, ((Regexp.cat (.star p) r).run ⟨prev, w ++ rest, none⟩).head? = some u ∧
      u.cap = some X := by
  intro prev
  rcases starRun_head p none prev w rest hw hrest with ⟨prev', ts, hstar⟩
  rcases h prev' with ⟨u, hu, hcap⟩
  exact ⟨u, cat_head _ _ _ _ _ _ (by simpa [Regexp.run] using hstar) hu, hcap⟩

theorem quest_cat_head_take (c : Char) (r : Regexp) (rest X : List Char)
    (h : ∀ prev, ∃ u, (r.run ⟨prev, rest, none⟩).head? = some u ∧ u.cap = some X) :
    ∀ prev, ∃ u, ((Regexp.cat (Regexp.quest (.lit c)) r).run ⟨prev, c :: rest, none⟩).head?
        = some u ∧ u.cap = some X := by
  intro prev
  rcases h (some c) with ⟨u, hu, hcap⟩
  refine ⟨u, cat_head _ _ _ ⟨some c, rest, none⟩ _ [⟨prev, c :: rest, none⟩] ?_ hu, hcap⟩
  simp [Regexp.run, Regexp.quest]

theorem quest_cat_head_skip (c : Char) (r : Regexp) (rest X : List Char)
    (hne : ∀ q ∈ rest.head?, q ≠ c)
    (h : ∀ prev, ∃ u, (r.run ⟨prev, rest, none⟩).head? = some u ∧ u.cap = some X) :
    ∀ prev, ∃ u, ((Regexp.cat (Regexp.quest (.lit c)) r).run ⟨prev, rest, none⟩).head?
        = some u ∧ u.cap = some X := by
  intro prev
  rcases h prev with ⟨u, hu, hcap⟩
  refine ⟨u, cat_head _ _ _ ⟨prev, rest, none⟩ _ [] ?_ hu, hcap⟩
  cases rest with
  | nil => simp [Regexp.run, Regexp.quest]
  | cons q qs =>
    have : q ≠ c := hne q (by simp)
    simp [Regexp.run, Regexp.quest, this]

theorem search_of_head (r : Regexp) (prev : Option Char) (input : List Char) (u : Thread)
    (h : (r.run ⟨prev, input, none⟩).head? = some u) :
    r.search prev input = some ⟨input, u⟩ := by
  cases hrun : r.run ⟨prev, input, none⟩ with
  | nil => rw [hrun] at h; simp at h
  | cons v vs =>
    rw [hrun] at h
    simp only [List.head?_cons, Option.some.injEq] at h
    subst h
    cases input with
    | nil => simp [Regexp.search, hrun]
    | cons c cs => simp [Regexp.search, hrun]

theorem disposition_quoted (x : Char) (xs : List Char) (hw : ∀ c ∈ x :: xs, notQuote c = true) :
    ∃ u, dispositionRegexp.search none
        ("attachment;".data ++ ([' '] ++ ("filename=".data ++ ('"' :: (x :: xs ++ ['"'])))))
        = some ⟨"attachment;".data ++ ([' '] ++ ("filename=".data ++ ('"' :: (x :: xs ++ ['"'])))),
            u⟩ ∧ u.cap = some (x :: xs) := by
  have h1 := fun prev => group_head prev x xs ['"'] hw (Or.inr rfl)
  have h2 := quest_cat_head_take '"' _ _ _ h1
  have h3 := lits_cat_head "filename=".data _ _ _ h2
  have h4 := star_cat_head isSpaceClass [' '] _ _ _ (by simp [isSpaceClass])
    (by simp [isSpaceClass]) h3
  rcases lits_cat_head "attachment;".data _ _ _ h4 none with ⟨u, hu, hcap⟩
  refine ⟨u, search_of_head _ _ _ _ ?_, hcap⟩
  rw [dispositionRegexp, bol_cat]
  exact hu

theorem disposition_plain (x : Char) (xs : List Char) (hw : ∀ c ∈ x :: xs, notQuote c = true) :
    ∃ u, dispositionRegexp.search none
        ("attachment;".data ++ ([] ++ ("filename=".data ++ (x :: xs ++ []))))
        = some ⟨"attachment;".data ++ ([] ++ ("filename=".data ++ (x :: xs ++ []))), u⟩ ∧
      u.cap = some (x :: xs) := by
  have hx : x ≠ '"' := by
    have := hw x (List.mem_cons_self _ _)
    simpa [notQuote] using this
  have h1 := fun prev => group_head prev x xs [] hw (Or.inl rfl)
  have h2 := quest_cat_head_skip '"' _ _ _ (by simpa using hx) h1
  have h3 := lits_cat_head "filename=".data _ _ _ h2
  have h4 := star_cat_head isSpaceClass [] _ _ _ (by simp) (by simp [isSpaceClass]) h3
  rcases lits_cat_head "attachment;".data _ _ _ h4 none with ⟨u, hu, hcap⟩
  refine ⟨u, search_of_head _ _ _ _ ?_, hcap⟩
  rw [dispositionRegexp, bol_cat]
  exact hu

/-- C2: for a string `X` without double quote, `FileNameFromDisposition`
returns exactly `X` on the single value `attachment; filename="X"` and on
the single value `attachment;filename=X`. -/
theorem C2_filename_recovered (X : String) (h : '"' ∉ X.data) :
    FileNameFromDisposition ["attachment; filename=\"" ++ X ++ "\""] = X ∧
      FileNameFromDisposition ["attachment;filename=" ++ X] = X := by
  rcases X with ⟨data⟩
  cases data with
  | nil => exact ⟨by decide, by decide⟩
  | cons x xs =>
    have hw : ∀ c ∈ x :: xs, notQuote c = true := by
      intro c hc
      have : c ≠ '"' := fun hq => h (hq ▸ hc)
      simpa [notQuote] using this
    constructor
    · rcases disposition_quoted x xs hw with ⟨u, hu, hcap⟩
      rw [fileName_single]
      have hdata : ("attachment; filename=\"" ++ (⟨x :: xs⟩ : String) ++ "\"").data =
          "attachment;".data ++ ([' '] ++ ("filename=".data ++ ('"' :: (x :: xs ++ ['"'])))) := by
        simp only [String.data_append]
        rfl
      rw [hdata, hu]
      simp [hcap]
    · rcases disposition_plain x xs hw with ⟨u, hu, hcap⟩
      rw [fileName_single]
      have hdata : ("attachment;filename=" ++ (⟨x :: xs⟩ : String)).data =
          "attachment;".data ++ ([] ++ ("filename=".data ++ (x :: xs ++ []))) := by
        simp only [String.data_append]
        simp
      rw [hdata, hu]
      simp [hcap]

/-- C2 at `X = a.txt`. -/
theorem C2_filename_recovered_witness :
    FileNameFromDisposition ["attachment; filename=\"" ++ "a.txt" ++ "\""] = "a.txt" ∧
      FileNameFromDisposition ["attachment;filename=" ++ "a.txt"] = "a.txt" :=
  C2_filename_recovered "a.txt" (by decide)

/-! ## Properties of the base64 decoder -/

set_option maxRecDepth 100000 in
theorem decodeMap_table :
    ∀ b, b < 128 →
      (decodeMap b).all (fun d =>
        decide (d < 64 ∧ b ≠ 10 ∧ b ≠ 13 ∧ b ≠ 61 ∧ (encodeChar d).toNat = b)) = true := by
  decide

theorem decodeMap_ascii (b d : Nat) (h : decodeMap b = some d) : b < 128 := by
  by_contra hb
  have hmem : b ∉ encodeStd.map Char.toNat := by
    intro hm
    have hall : ∀ x ∈ encodeStd.map Char.toNat, x < 128 := by decide
    exact hb (hall b hm)
  have hidx : (encodeStd.map Char.toNat).indexOf b = 64 := by
    rw [List.indexOf_eq_length.mpr hmem]
    rfl
  simp [decodeMap, hidx] at h

theorem decodeMap_some (b d : Nat) (h : decodeMap b = some d) :
    b < 128 ∧ d < 64 ∧ b ≠ 10 ∧ b ≠ 13 ∧ b ≠ 61 ∧ (encodeChar d).toNat = b := by
  have hb := decodeMap_ascii b d h
  have := decodeMap_table b hb
  rw [h] at this
  simp only [Option.all_some, decide_eq_true_eq] at this
  exact ⟨hb, this⟩

theorem skipNewlines_spec (src : List Nat) (si : Nat) :
    ∃ nl, src = nl ++ (skipNewlines src si).1 ∧ (∀ b ∈ nl, b = 10 ∨ b = 13) ∧
      (skipNewlines src si).2 = si + nl.length := by
  induction src generalizing si with
  | nil => exact ⟨[], rfl, by simp, rfl⟩
  | cons c cs ih =>
    unfold skipNewlines
    split
    · rename_i hc
      rcases ih (si + 1) with ⟨nl, h1, h2, h3⟩
      refine ⟨c :: nl, by rw [List.cons_append, ← h1], ?_, by rw [h3, List.length_cons]; omega⟩
      intro b hb
      simp only [List.mem_cons] at hb
      rcases hb with rfl | hb
      · exact hc
      · exact h2 b hb
    · exact ⟨[], rfl, by simp, rfl⟩

theorem quantumBytes_rest (enc : Encoding) (dbuf : List Nat) (dlen : Nat) (rest : List Nat)
    (si : Nat) (err : Option Nat) : (quantumBytes enc dbuf dlen rest si err).rest = rest := by
  unfold quantumBytes
  simp only
  split_ifs <;> rfl

theorem quantumBytes_err (enc : Encoding) (dbuf : List Nat) (dlen : Nat) (rest : List Nat)
    (si : Nat) (err : Option Nat) (h : err ≠ none) :
    (quantumBytes enc dbuf dlen rest si err).err ≠ none := by
  unfold quantumBytes
  simp only
  split_ifs <;> simp [h]

theorem quantumLoop_bad (enc : Encoding) (src : List Nat) :
    ∀ (j : Nat) (dbuf : List Nat) (si : Nat),
      (∃ b ∈ src, decodeMap b = none ∧ b ≠ 10 ∧ b ≠ 13 ∧ b ≠ padChar) →
      (quantumLoop enc j dbuf src si).err ≠ none ∨
        ∃ b ∈ (quantumLoop enc j dbuf src si).rest,
          decodeMap b = none ∧ b ≠ 10 ∧ b ≠ 13 ∧ b ≠ padChar := by
  induction src with
  | nil => intro j dbuf si h; simp at h
  | cons b src ih =>
    intro j dbuf si hbad
    rw [quantumLoop]
    split
    · right
      rw [quantumBytes_rest]
      exact hbad
    · have hsrc : ∀ {l : List Nat}, (∀ x ∈ l, x = 10 ∨ x = 13 ∨ x = padChar ∨ decodeMap x ≠ none) →
          (∃ x ∈ l ++ src, decodeMap x = none ∧ x ≠ 10 ∧ x ≠ 13 ∧ x ≠ padChar) →
          ∃ x ∈ src, decodeMap x = none ∧ x ≠ 10 ∧ x ≠ 13 ∧ x ≠ padChar := by
        intro l hl ⟨x, hx, h1, h2, h3, h4⟩
        rcases List.mem_append.mp hx with hx | hx
        · rcases hl x hx with h | h | h | h
          · exact absurd h h2
          · exact absurd h h3
          · exact absurd h h4
          · exact absurd h1 h
        · exact ⟨x, hx, h1, h2, h3, h4⟩
      split
      · rename_i out hout
        exact ih _ _ _ (hsrc (l := [b]) (by simp [hout]) hbad)
      · rename_i hnone
        split
        · rename_i hnl
          refine ih _ _ _ (hsrc (l := [b]) ?_ hbad)
          intro x hx
          simp only [List.mem_singleton] at hx
          subst hx
          rcases hnl with h | h
          · exact Or.inl h
          · exact Or.inr (Or.inl h)
        · split
          · left; simp
          · rename_i hpad
            have hb : b = padChar := by simpa using hpad
            have hbad1 : ∃ x ∈ src, decodeMap x = none ∧ x ≠ 10 ∧ x ≠ 13 ∧ x ≠ padChar :=
              hsrc (l := [b]) (by simp [hb]) hbad
            have hskip : ∀ (l : List Nat) (s : Nat),
                (∃ x ∈ l, decodeMap x = none ∧ x ≠ 10 ∧ x ≠ 13 ∧ x ≠ padChar) →
                ∃ x ∈ (skipNewlines l s).1,
                  decodeMap x = none ∧ x ≠ 10 ∧ x ≠ 13 ∧ x ≠ padChar := by
              intro l s ⟨x, hx, h1, h2, h3, h4⟩
              rcases skipNewlines_spec l s with ⟨nl, hl, hnl, _⟩
              rw [hl] at hx
              rcases List.mem_append.mp hx with hx | hx
              · rcases hnl x hx with h | h
                · exact absurd h h2
                · exact absurd h h3
              · exact ⟨x, hx, h1, h2, h3, h4⟩
            split
            · left; simp
            · split
              · split
                · rename_i si1 heq
                  left; simp
                · rename_i c src1 si1 heq
                  split
                  · left; simp
                  · rename_i hc
                    left
                    have hc' : c = padChar := by simpa using hc
                    have h1 := hskip src (si + 1) hbad1
                    rw [heq] at h1
                    have h2 : ∃ x ∈ src1, decodeMap x = none ∧ x ≠ 10 ∧ x ≠ 13 ∧ x ≠ padChar := by
                      rcases h1 with ⟨x, hx, hx1, hx2, hx3, hx4⟩
                      simp only [List.mem_cons] at hx
                      rcases hx with rfl | hx
                      · exact absurd hc' hx4
                      · exact ⟨x, hx, hx1, hx2, hx3, hx4⟩
                    have h3 := hskip src1 (si1 + 1) h2
                    rcases hsk : skipNewlines src1 (si1 + 1) with ⟨src2, si2⟩
                    rw [hsk] at h3
                    simp only
                    apply quantumBytes_err
                    rcases h3 with ⟨x, hx, _⟩
                    have : src2 ≠ [] := List.ne_nil_of_mem hx
                    simp [this]
              · left
                have h3 := hskip src (si + 1) hbad1
                rcases hsk : skipNewlines src (si + 1) with ⟨src2, si2⟩
                rw [hsk] at h3
                simp only
                apply quantumBytes_err
                rcases h3 with ⟨x, hx, _⟩
                have : src2 ≠ [] := List.ne_nil_of_mem hx
                simp [this]

theorem skipNewlines_length (src : List Nat) (si : Nat) :
    (skipNewlines src si).1.length ≤ src.length := by
  rcases skipNewlines_spec src si with ⟨nl, h, _, _⟩
  have := congrArg List.length h
  rw [List.length_append] at this
  omega

theorem quantumLoop_length (enc : Encoding) (src : List Nat) :
    ∀ (j : Nat) (dbuf : List Nat) (si : Nat),
      (quantumLoop enc j dbuf src si).rest.length ≤ src.length ∧
        (j < 4 → src ≠ [] → (quantumLoop enc j dbuf src si).rest.length < src.length) := by
  induction src with
  | nil =>
    intro j dbuf si
    refine ⟨?_, fun _ h => absurd rfl h⟩
    rw [quantumLoop]
    split_ifs <;> simp [quantumBytes_rest]
  | cons b src ih =>
    intro j dbuf si
    suffices h : (4 ≤ j → (quantumLoop enc j dbuf (b :: src) si).rest.length ≤ src.length + 1) ∧
        (j < 4 → (quantumLoop enc j dbuf (b :: src) si).rest.length < src.length + 1) by
      refine ⟨?_, fun hj _ => by simpa using h.2 hj⟩
      rcases Nat.lt_or_ge j 4 with hj | hj
      · exact Nat.le_of_lt (by simpa using h.2 hj)
      · simpa using h.1 hj
    rw [quantumLoop]
    split
    · rename_i hj
      exact ⟨fun _ => by simp [quantumBytes_rest], fun h => absurd hj (by omega)⟩
    · rename_i hj
      refine ⟨fun h => absurd h hj, fun _ => ?_⟩
      split
      · exact Nat.lt_succ_of_le (ih _ _ _).1
      · split
        · exact Nat.lt_succ_of_le (ih _ _ _).1
        · split
          · simp
          · split
            · simp
            · split
              · split
                · simp
                · rename_i c src1 si1 heq
                  have h1 := skipNewlines_length src (si + 1)
                  rw [heq] at h1
                  simp only [List.length_cons] at h1
                  split
                  · simp only [List.length_cons]; omega
                  · have h2 := skipNewlines_length src1 (si1 + 1)
                    rcases hsk : skipNewlines src1 (si1 + 1) with ⟨src2, si2⟩
                    rw [hsk] at h2
                    simp only [quantumBytes_rest]
                    simp only at h2
                    omega
              · have h2 := skipNewlines_length src (si + 1)
                rcases hsk : skipNewlines src (si + 1) with ⟨src2, si2⟩
                rw [hsk] at h2
                simp only [quantumBytes_rest]
                simp only at h2
                omega

/-- The bound on the iterations of `decodeLoop` is never reached: every
bound from the length of the source on gives the same result. -/
theorem decodeLoop_fuel (enc : Encoding) (fuel : Nat) :
    ∀ (src : List Nat) (si : Nat) (dst : List Nat), src.length ≤ fuel →
      decodeLoop enc fuel src si dst = decodeLoop enc src.length src si dst := by
  induction fuel using Nat.strong_induction_on with
  | _ fuel ih =>
    intro src si dst hlen
    cases src with
    | nil => cases fuel <;> rfl
    | cons b src =>
      cases fuel with
      | zero => simp at hlen
      | succ fuel =>
        simp only [List.length_cons, decodeLoop]
        split
        · rfl
        · have hq := (quantumLoop_length enc (b :: src) 0 [] si).2 (by omega) (by simp)
          simp only [List.length_cons] at hq hlen
          rw [ih fuel (Nat.lt_succ_self _) _ _ _ (by unfold decodeQuantum; omega)]
          rw [ih src.length (by omega) _ _ _ (by unfold decodeQuantum; omega)]

/-- A byte that is neither in the alphabet, nor a line break, nor the padding
character makes the decoder fail. -/
theorem decodeLoop_bad (enc : Encoding) (fuel : Nat) :
    ∀ (src : List Nat) (si : Nat) (dst : List Nat), src.length ≤ fuel →
      (∃ b ∈ src, decodeMap b = none ∧ b ≠ 10 ∧ b ≠ 13 ∧ b ≠ padChar) →
      (decodeLoop enc fuel src si dst).2 ≠ none := by
  induction fuel with
  | zero =>
    intro src si dst hlen ⟨b, hb, _⟩
    cases src with
    | nil => simp at hb
    | cons => simp at hlen
  | succ fuel ih =>
    intro src si dst hlen hbad
    cases src with
    | nil =>
      rcases hbad with ⟨b, hb, _⟩
      simp at hb
    | cons b src =>
      simp only [decodeLoop]
      split
      · rename_i herr
        intro hnone
        simp only at hnone
        rw [hnone] at herr
        simp at herr
      · rename_i herr
        have hq := (quantumLoop_length enc (b :: src) 0 [] si).2 (by omega) (by simp)
        simp only [List.length_cons] at hq hlen
        refine ih _ _ _ (by unfold decodeQuantum; omega) ?_
        rcases quantumLoop_bad enc (b :: src) 0 [] si hbad with h | h
        · exact absurd (by simpa [decodeQuantum] using herr) h
        · exact h

theorem utf8Bytes_ascii (c : Char) (h : c.toNat < 128) : utf8Bytes c = [c.toNat] := by
  unfold utf8Bytes
  simp only
  rw [if_pos (by omega)]

theorem utf8Bytes_high (c : Char) (h : 128 ≤ c.toNat) : ∀ b ∈ utf8Bytes c, 128 ≤ b := by
  unfold utf8Bytes
  simp only
  split_ifs
  · omega
  all_goals
    intro b hb
    simp only [List.mem_cons, List.mem_singleton, List.not_mem_nil, or_false] at hb
    omega

theorem or_eq_add_of_lt (i a b : Nat) (h : b < 2 ^ i) : 2 ^ i * a ||| b = 2 ^ i * a + b :=
  (Nat.mul_add_lt_is_or h a).symm

theorem sextets_value (d0 d1 d2 d3 : Nat) (h1 : d1 < 64) (h2 : d2 < 64) (h3 : d3 < 64) :
    d0 <<< 18 ||| d1 <<< 12 ||| d2 <<< 6 ||| d3 = d0 * 262144 + d1 * 4096 + d2 * 64 + d3 := by
  simp only [Nat.shiftLeft_eq]
  have e1 : d0 * 2 ^ 18 ||| d1 * 2 ^ 12 = d0 * 262144 + d1 * 4096 := by
    have := or_eq_add_of_lt 18 d0 (d1 * 2 ^ 12) (by omega)
    rw [Nat.mul_comm (2 ^ 18) d0] at this
    rw [this]
    omega
  rw [e1]
  have e2 : (d0 * 262144 + d1 * 4096) ||| d2 * 2 ^ 6 = d0 * 262144 + d1 * 4096 + d2 * 64 := by
    have := or_eq_add_of_lt 12 (d0 * 64 + d1) (d2 * 2 ^ 6) (by omega)
    rw [show 2 ^ 12 * (d0 * 64 + d1) = d0 * 262144 + d1 * 4096 by omega] at this
    rw [this]
    omega
  rw [e2]
  have e3 := or_eq_add_of_lt 6 (d0 * 4096 + d1 * 64 + d2) d3 (by omega)
  rw [show 2 ^ 6 * (d0 * 4096 + d1 * 64 + d2) = d0 * 262144 + d1 * 4096 + d2 * 64 by omega] at e3
  exact e3

theorem octets_value (b0 b1 b2 : Nat) (h1 : b1 < 256) (h2 : b2 < 256) :
    b0 <<< 16 ||| b1 <<< 8 ||| b2 = b0 * 65536 + b1 * 256 + b2 := by
  simp only [Nat.shiftLeft_eq]
  have e1 : b0 * 2 ^ 16 ||| b1 * 2 ^ 8 = b0 * 65536 + b1 * 256 := by
    have := or_eq_add_of_lt 16 b0 (b1 * 2 ^ 8) (by omega)
    rw [Nat.mul_comm (2 ^ 16) b0] at this
    rw [this]
    omega
  rw [e1]
  have e3 := or_eq_add_of_lt 8 (b0 * 256 + b1) b2 (by omega)
  rw [show 2 ^ 8 * (b0 * 256 + b1) = b0 * 65536 + b1 * 256 by omega] at e3
  exact e3

theorem and_63 (x : Nat) : x &&& 0x3f = x % 64 := Nat.and_pow_two_sub_one_eq_mod x 6

theorem requantize (d0 d1 d2 d3 : Nat) (h0 : d0 < 64) (h1 : d1 < 64) (h2 : d2 < 64)
    (h3 : d3 < 64) :
    let val := d0 <<< 18 ||| d1 <<< 12 ||| d2 <<< 6 ||| d3
    let w := ((val >>> 16) % 256) <<< 16 ||| ((val >>> 8) % 256) <<< 8 ||| ((val >>> 0) % 256)
    w >>> 18 &&& 0x3f = d0 ∧ w >>> 12 &&& 0x3f = d1 ∧ w >>> 6 &&& 0x3f = d2 ∧
      w &&& 0x3f = d3 := by
  intro val w
  have hval : val = d0 * 262144 + d1 * 4096 + d2 * 64 + d3 := sextets_value d0 d1 d2 d3 h1 h2 h3
  have hw : w = val := by
    show ((val >>> 16) % 256) <<< 16 ||| ((val >>> 8) % 256) <<< 8 ||| ((val >>> 0) % 256) = val
    rw [octets_value _ _ _ (Nat.mod_lt _ (by decide)) (Nat.mod_lt _ (by decide))]
    simp only [Nat.shiftRight_eq_div_pow]
    omega
  rw [hw, hval]
  simp only [and_63, Nat.shiftRight_eq_div_pow]
  refine ⟨?_, ?_, ?_, ?_⟩ <;> omega

theorem requantize3 (d0 d1 d2 : Nat) (h0 : d0 < 64) (h1 : d1 < 64) (h2 : d2 < 64) :
    let val := d0 <<< 18 ||| d1 <<< 12 ||| d2 <<< 6 ||| 0
    (val >>> 0) % 256 = 0 →
    let w := ((val >>> 16) % 256) <<< 16 ||| ((val >>> 8) % 256) <<< 8
    w >>> 18 &&& 0x3f = d0 ∧ w >>> 12 &&& 0x3f = d1 ∧ w >>> 6 &&& 0x3f = d2 := by
  intro val hz w
  have hval : val = d0 * 262144 + d1 * 4096 + d2 * 64 + 0 :=
    sextets_value d0 d1 d2 0 h1 h2 (by omega)
  have hw : w = ((val >>> 16) % 256) * 65536 + ((val >>> 8) % 256) * 256 + 0 := by
    rw [← octets_value _ _ 0 (Nat.mod_lt _ (by decide)) (by omega), Nat.or_zero]
  rw [hw]
  simp only [Nat.shiftRight_eq_div_pow] at hz ⊢
  rw [hval] at hz ⊢
  simp only [and_63]
  refine ⟨?_, ?_, ?_⟩ <;> omega

theorem requantize2 (d0 d1 : Nat) (h0 : d0 < 64) (h1 : d1 < 64) :
    let val := d0 <<< 18 ||| d1 <<< 12 ||| 0 <<< 6 ||| 0
    (val >>> 8) % 256 = 0 → (val >>> 0) % 256 = 0 →
    let w := ((val >>> 16) % 256) <<< 16
    w >>> 18 &&& 0x3f = d0 ∧ w >>> 12 &&& 0x3f = d1 := by
  intro val hz1 hz0 w
  have hval : val = d0 * 262144 + d1 * 4096 + 0 * 64 + 0 :=
    sextets_value d0 d1 0 0 h1 (by omega) (by omega)
  have hw : w = ((val >>> 16) % 256) * 65536 := by
    show ((val >>> 16) % 256) <<< 16 = _
    rw [Nat.shiftLeft_eq]
  rw [hw]
  simp only [Nat.shiftRight_eq_div_pow] at hz1 hz0 ⊢
  rw [hval] at hz1 hz0 ⊢
  simp only [and_63]
  refine ⟨?_, ?_⟩ <;> omega

theorem skipNewlines_id (src : List Nat) (si : Nat) (h : ∀ b ∈ src, b ≠ 10 ∧ b ≠ 13) :
    skipNewlines src si = (src, si) := by
  cases src with
  | nil => rfl
  | cons c cs =>
    have := h c (List.mem_cons_self _ _)
    simp [skipNewlines, this.1, this.2]

theorem quantumLoop_four (enc : Encoding) (dbuf src : List Nat) (si : Nat) :
    quantumLoop enc 4 dbuf src si = quantumBytes enc dbuf 4 src si none := by
  cases src <;> simp [quantumLoop]

theorem quantumLoop_some (enc : Encoding) (j : Nat) (dbuf src : List Nat) (si b d : Nat)
    (hj : j < 4) (hd : decodeMap b = some d) :
    quantumLoop enc j dbuf (b :: src) si = quantumLoop enc (j + 1) (dbuf ++ [d]) src (si + 1) := by
  rw [quantumLoop, if_neg (by omega), hd]

theorem quantumLoop_end (enc : Encoding) (j : Nat) (dbuf : List Nat) (si : Nat)
    (hj : j < 4) (h0 : j ≠ 0) : (quantumLoop enc j dbuf [] si).err ≠ none := by
  rw [quantumLoop, if_neg (by omega), if_neg h0]
  simp

theorem quantumLoop_foreign (enc : Encoding) (j : Nat) (dbuf src : List Nat) (si b : Nat)
    (hj : j < 4) (hd : decodeMap b = none) (hnl : b ≠ 10 ∧ b ≠ 13)
    (hpad : b ≠ padChar ∨ j < 2) : (quantumLoop enc j dbuf (b :: src) si).err ≠ none := by
  rw [quantumLoop, if_neg (by omega), hd]
  simp only [hnl.1, hnl.2, or_self, if_false]
  by_cases hb : b = padChar
  · have hj2 : j < 2 := by
      rcases hpad with h | h
      · exact absurd hb h
      · exact h
    simp [hb, hj2]
  · simp [hb]

theorem quantumLoop_pad3 (enc : Encoding) (dbuf src : List Nat) (si : Nat)
    (hsrc : ∀ b ∈ src, b ≠ 10 ∧ b ≠ 13) :
    quantumLoop enc 3 dbuf (padChar :: src) si =
      quantumBytes enc dbuf 3 src (si + 1) (if src = [] then none else some (si + 1)) := by
  rw [quantumLoop, if_neg (by omega)]
  have hm : decodeMap padChar = none := by decide
  rw [hm]
  simp [padChar, skipNewlines_id src _ hsrc]

theorem quantumLoop_pad2 (enc : Encoding) (dbuf src : List Nat) (si : Nat)
    (hsrc : ∀ b ∈ src, b ≠ 10 ∧ b ≠ 13)
    (herr : (quantumLoop enc 2 dbuf (padChar :: src) si).err = none) :
    src = [padChar] ∧
      quantumLoop enc 2 dbuf (padChar :: src) si = quantumBytes enc dbuf 2 [] (si + 2) none := by
  have hm : decodeMap padChar = none := by decide
  rw [quantumLoop, if_neg (by omega), hm] at herr ⊢
  simp only [padChar, skipNewlines_id src _ hsrc, show ¬ ((61 : Nat) = 10 ∨ (61 : Nat) = 13) by omega,
    if_false, ne_eq, not_true_eq_false, show ¬ (2 < 2) by omega, if_true] at herr ⊢
  match src, hsrc with
  | [], _ => simp at herr
  | c :: src1, hsrc =>
    have hs1 : ∀ b ∈ src1, b ≠ 10 ∧ b ≠ 13 := fun b hb => hsrc b (by simp [hb])
    simp only [skipNewlines_id src1 _ hs1] at herr ⊢
    by_cases hc : c = 61
    · subst hc
      simp only [not_true_eq_false, if_false] at herr ⊢
      cases src1 with
      | nil => simp
      | cons x xs =>
        exfalso
        exact quantumBytes_err enc dbuf 2 (x :: xs) (si + 1 + 1) _ (by simp) herr
    · simp [hc] at herr

/-- The three ways in which `decodeQuantum` succeeds on a source without
line breaks: four alphabet bytes, three and `=`, two and `==`, the padded
groups ending the source. -/
theorem decodeQuantum_cases (enc : Encoding) (src : List Nat) (si : Nat)
    (hnl : ∀ b ∈ src, b ≠ 10 ∧ b ≠ 13) (hne : src ≠ [])
    (herr : (decodeQuantum enc src si).err = none) :
    (∃ b0 b1 b2 b3 rest d0 d1 d2 d3, src = b0 :: b1 :: b2 :: b3 :: rest ∧
        decodeMap b0 = some d0 ∧ decodeMap b1 = some d1 ∧ decodeMap b2 = some d2 ∧
        decodeMap b3 = some d3 ∧
        decodeQuantum enc src si = quantumBytes enc [d0, d1, d2, d3] 4 rest (si + 4) none) ∨
      (∃ b0 b1 b2 d0 d1 d2, src = [b0, b1, b2, padChar] ∧
        decodeMap b0 = some d0 ∧ decodeMap b1 = some d1 ∧ decodeMap b2 = some d2 ∧
        decodeQuantum enc src si = quantumBytes enc [d0, d1, d2] 3 [] (si + 4) none) ∨
      (∃ b0 b1 d0 d1, src = [b0, b1, padChar, padChar] ∧
        decodeMap b0 = some d0 ∧ decodeMap b1 = some d1 ∧
        decodeQuantum enc src si = quantumBytes enc [d0, d1] 2 [] (si + 4) none) := by
  unfold decodeQuantum at herr ⊢
  match src, hne with
  | b0 :: s1, _ =>
    have hb0 := hnl b0 (by simp)
    cases h0 : decodeMap b0 with
    | none => exact absurd herr (quantumLoop_foreign enc 0 [] s1 si b0 (by omega) h0 hb0 (Or.inr (by omega)))
    | some d0 =>
      rw [quantumLoop_some enc 0 [] s1 si b0 d0 (by omega) h0] at herr ⊢
      match s1 with
      | [] => exact absurd herr (quantumLoop_end enc 1 _ _ (by omega) (by omega))
      | b1 :: s2 =>
        have hb1 := hnl b1 (by simp)
        cases h1 : decodeMap b1 with
        | none => exact absurd herr (quantumLoop_foreign enc 1 _ s2 _ b1 (by omega) h1 hb1 (Or.inr (by omega)))
        | some d1 =>
          rw [quantumLoop_some enc 1 _ s2 _ b1 d1 (by omega) h1] at herr ⊢
          match s2 with
          | [] => exact absurd herr (quantumLoop_end enc 2 _ _ (by omega) (by omega))
          | b2 :: s3 =>
            have hb2 := hnl b2 (by simp)
            have hs3 : ∀ b ∈ s3, b ≠ 10 ∧ b ≠ 13 := fun b hb => hnl b (by simp [hb])
            cases h2 : decodeMap b2 with
            | none =>
              by_cases hp : b2 = padChar
              · subst hp
                rcases quantumLoop_pad2 enc _ s3 _ hs3 herr with ⟨hs, hq⟩
                subst hs
                exact Or.inr (Or.inr ⟨b0, b1, d0, d1, rfl, h0, h1, hq⟩)
              · exact absurd herr (quantumLoop_foreign enc 2 _ s3 _ b2 (by omega) h2 hb2 (Or.inl hp))
            | some d2 =>
              rw [quantumLoop_some enc 2 _ s3 _ b2 d2 (by omega) h2] at herr ⊢
              match s3 with
              | [] => exact absurd herr (quantumLoop_end enc 3 _ _ (by omega) (by omega))
              | b3 :: s4 =>
                have hb3 := hnl b3 (by simp)
                have hs4 : ∀ b ∈ s4, b ≠ 10 ∧ b ≠ 13 := fun b hb => hnl b (by simp [hb])
                cases h3 : decodeMap b3 with
                | none =>
                  by_cases hp : b3 = padChar
                  · subst hp
                    rw [quantumLoop_pad3 enc _ s4 _ hs4] at herr ⊢
                    cases s4 with
                    | nil => exact Or.inr (Or.inl ⟨b0, b1, b2, d0, d1, d2, rfl, h0, h1, h2, rfl⟩)
                    | cons x xs =>
                      exact absurd herr (quantumBytes_err enc _ 3 (x :: xs) _ _ (by simp))
                  · exact absurd herr (quantumLoop_foreign enc 3 _ s4 _ b3 (by omega) h3 hb3 (Or.inl hp))
                | some d3 =>
                  rw [quantumLoop_some enc 3 _ s4 _ b3 d3 (by omega) h3, quantumLoop_four]
                  exact Or.inl ⟨b0, b1, b2, b3, s4, d0, d1, d2, d3, rfl, h0, h1, h2, h3, rfl⟩

theorem quantum4_encode (enc : Encoding) (d0 d1 d2 d3 : Nat) (h0 : d0 < 64) (h1 : d1 < 64)
    (h2 : d2 < 64) (h3 : d3 < 64) (rest : List Nat) (si : Nat) (more : List Nat) :
    (quantumBytes enc [d0, d1, d2, d3] 4 rest si none).err = none ∧
      (quantumBytes enc [d0, d1, d2, d3] 4 rest si none).rest = rest ∧
      encodeBytes ((quantumBytes enc [d0, d1, d2, d3] 4 rest si none).out ++ more) =
        encodeChar d0 :: encodeChar d1 :: encodeChar d2 :: encodeChar d3 :: encodeBytes more := by
  have hq := requantize d0 d1 d2 d3 h0 h1 h2 h3
  simp only at hq
  obtain ⟨e0, e1, e2, e3⟩ := hq
  refine ⟨?_, quantumBytes_rest _ _ _ _ _ _, ?_⟩
  · simp only [quantumBytes, if_true]
  · simp only [quantumBytes, List.getD_cons_zero, List.getD_cons_succ, if_true, List.cons_append,
      encodeBytes, e0, e1, e2, e3]
    rfl

theorem quantum3_encode (d0 d1 d2 : Nat) (h0 : d0 < 64) (h1 : d1 < 64) (h2 : d2 < 64)
    (si si' : Nat) (herr : (quantumBytes ⟨true⟩ [d0, d1, d2] 3 [] si none).err = none) :
    (quantumBytes ⟨false⟩ [d0, d1, d2] 3 [] si' none).err = none ∧
      (quantumBytes ⟨false⟩ [d0, d1, d2] 3 [] si' none).rest = [] ∧
      encodeBytes (quantumBytes ⟨false⟩ [d0, d1, d2] 3 [] si' none).out =
        [encodeChar d0, encodeChar d1, encodeChar d2, '='] := by
  have hq := requantize3 d0 d1 d2 h0 h1 h2
  simp only at hq
  have hz : ((d0 <<< 18 ||| d1 <<< 12 ||| d2 <<< 6 ||| 0) >>> 0) % 256 = 0 := by
    by_contra hne
    have hs : (quantumBytes ⟨true⟩ [d0, d1, d2] 3 [] si none).err = some (si - 1) := by
      simp only [quantumBytes, List.getD_cons_zero, List.getD_cons_succ, List.getD_nil]
      rw [if_neg (show ¬ (3 : Nat) = 4 by decide), if_pos trivial, if_pos ⟨trivial, hne⟩]
    rw [hs] at herr
    exact absurd herr (by simp)
  obtain ⟨e0, e1, e2⟩ := hq hz
  have hf : quantumBytes ⟨false⟩ [d0, d1, d2] 3 [] si' none =
      ⟨[], si', [((d0 <<< 18 ||| d1 <<< 12 ||| d2 <<< 6 ||| 0) >>> 16) % 256,
        ((d0 <<< 18 ||| d1 <<< 12 ||| d2 <<< 6 ||| 0) >>> 8) % 256], none⟩ := by
    simp only [quantumBytes, List.getD_cons_zero, List.getD_cons_succ, List.getD_nil]
    rw [if_neg (show ¬ (3 : Nat) = 4 by decide), if_pos trivial, if_neg (fun h => Bool.false_ne_true h.1)]
  rw [hf]
  refine ⟨rfl, rfl, ?_⟩
  simp only [encodeBytes, e0, e1, e2]

theorem quantum2_encode (d0 d1 : Nat) (h0 : d0 < 64) (h1 : d1 < 64)
    (si si' : Nat) (herr : (quantumBytes ⟨true⟩ [d0, d1] 2 [] si none).err = none) :
    (quantumBytes ⟨false⟩ [d0, d1] 2 [] si' none).err = none ∧
      (quantumBytes ⟨false⟩ [d0, d1] 2 [] si' none).rest = [] ∧
      encodeBytes (quantumBytes ⟨false⟩ [d0, d1] 2 [] si' none).out =
        [encodeChar d0, encodeChar d1, '=', '='] := by
  have hq := requantize2 d0 d1 h0 h1
  simp only at hq
  have hz : ((d0 <<< 18 ||| d1 <<< 12 ||| 0 <<< 6 ||| 0) >>> 8) % 256 = 0 ∧
      ((d0 <<< 18 ||| d1 <<< 12 ||| 0 <<< 6 ||| 0) >>> 0) % 256 = 0 := by
    by_contra hne
    have hne' : ((d0 <<< 18 ||| d1 <<< 12 ||| 0 <<< 6 ||| 0) >>> 8) % 256 ≠ 0 ∨
        ((d0 <<< 18 ||| d1 <<< 12 ||| 0 <<< 6 ||| 0) >>> 0) % 256 ≠ 0 := by
      rw [not_and_or] at hne
      exact hne
    have hs : (quantumBytes ⟨true⟩ [d0, d1] 2 [] si none).err = some (si - 2) := by
      simp only [quantumBytes, List.getD_cons_zero, List.getD_cons_succ, List.getD_nil]
      rw [if_neg (show ¬ (2 : Nat) = 4 by decide), if_neg (show ¬ (2 : Nat) = 3 by decide),
        if_pos ⟨trivial, hne'⟩]
    rw [hs] at herr
    exact absurd herr (by simp)
  obtain ⟨e0, e1⟩ := hq hz.1 hz.2
  have hf : quantumBytes ⟨false⟩ [d0, d1] 2 [] si' none =
      ⟨[], si', [((d0 <<< 18 ||| d1 <<< 12 ||| 0 <<< 6 ||| 0) >>> 16) % 256], none⟩ := by
    simp only [quantumBytes, List.getD_cons_zero, List.getD_cons_succ, List.getD_nil]
    rw [if_neg (show ¬ (2 : Nat) = 4 by decide), if_neg (show ¬ (2 : Nat) = 3 by decide),
      if_neg (fun h => Bool.false_ne_true h.1)]
  rw [hf]
  refine ⟨rfl, rfl, ?_⟩
  simp only [encodeBytes, e0, e1]

theorem quantumBytes_nsi (enc : Encoding) (dbuf : List Nat) (dlen : Nat) (rest : List Nat)
    (si : Nat) (err : Option Nat) : (quantumBytes enc dbuf dlen rest si err).nsi = si := by
  unfold quantumBytes
  simp only
  split_ifs <;> rfl

theorem decodeQuantum_four (enc : Encoding) (b0 b1 b2 b3 d0 d1 d2 d3 : Nat) (rest : List Nat)
    (si : Nat) (h0 : decodeMap b0 = some d0) (h1 : decodeMap b1 = some d1)
    (h2 : decodeMap b2 = some d2) (h3 : decodeMap b3 = some d3) :
    decodeQuantum enc (b0 :: b1 :: b2 :: b3 :: rest) si =
      quantumBytes enc [d0, d1, d2, d3] 4 rest (si + 4) none := by
  rw [decodeQuantum, quantumLoop_some enc 0 _ _ _ b0 d0 (by omega) h0,
    quantumLoop_some enc 1 _ _ _ b1 d1 (by omega) h1,
    quantumLoop_some enc 2 _ _ _ b2 d2 (by omega) h2,
    quantumLoop_some enc 3 _ _ _ b3 d3 (by omega) h3, quantumLoop_four]
  rfl

theorem decodeQuantum_three (enc : Encoding) (b0 b1 b2 d0 d1 d2 : Nat)
    (si : Nat) (h0 : decodeMap b0 = some d0) (h1 : decodeMap b1 = some d1)
    (h2 : decodeMap b2 = some d2) :
    decodeQuantum enc [b0, b1, b2, padChar] si =
      quantumBytes enc [d0, d1, d2] 3 [] (si + 4) none := by
  rw [decodeQuantum, quantumLoop_some enc 0 _ _ _ b0 d0 (by omega) h0,
    quantumLoop_some enc 1 _ _ _ b1 d1 (by omega) h1,
    quantumLoop_some enc 2 _ _ _ b2 d2 (by omega) h2,
    quantumLoop_pad3 enc _ [] _ (by simp)]
  rfl

theorem decodeQuantum_two (enc : Encoding) (b0 b1 d0 d1 : Nat)
    (si : Nat) (h0 : decodeMap b0 = some d0) (h1 : decodeMap b1 = some d1) :
    decodeQuantum enc [b0, b1, padChar, padChar] si =
      quantumBytes enc [d0, d1] 2 [] (si + 4) none := by
  have hm : decodeMap padChar = none := by decide
  rw [decodeQuantum, quantumLoop_some enc 0 _ _ _ b0 d0 (by omega) h0,
    quantumLoop_some enc 1 _ _ _ b1 d1 (by omega) h1, quantumLoop, if_neg (by omega), hm]
  simp [padChar, skipNewlines]

theorem decodeLoop_nil (enc : Encoding) (fuel si : Nat) (dst : List Nat) :
    decodeLoop enc fuel [] si dst = (dst, none) := by
  cases fuel <;> rfl

theorem decodeLoop_dst (enc : Encoding) (fuel : Nat) :
    ∀ (src : List Nat) (si : Nat) (dst : List Nat),
      decodeLoop enc fuel src si dst =
        (dst ++ (decodeLoop enc fuel src si []).1, (decodeLoop enc fuel src si []).2) := by
  induction fuel with
  | zero => intro src si dst; simp [decodeLoop]
  | succ fuel ih =>
    intro src si dst
    cases src with
    | nil => simp [decodeLoop]
    | cons b src =>
      simp only [decodeLoop]
      split
      · simp
      · rw [ih _ _ (dst ++ _), ih _ _ ([] ++ _)]
        simp

theorem decodeLoop_step (enc : Encoding) (fuel b : Nat) (src : List Nat) (si : Nat)
    (h : (decodeQuantum enc (b :: src) si).err = none) :
    decodeLoop enc (fuel + 1) (b :: src) si [] =
      ((decodeQuantum enc (b :: src) si).out ++
          (decodeLoop enc fuel (decodeQuantum enc (b :: src) si).rest
            (decodeQuantum enc (b :: src) si).nsi []).1,
        (decodeLoop enc fuel (decodeQuantum enc (b :: src) si).rest
            (decodeQuantum enc (b :: src) si).nsi []).2) := by
  simp only [decodeLoop, h, Option.isSome_none, if_false, List.nil_append]
  rw [decodeLoop_dst]
  simp

theorem decodeLoop_ok_quantum (enc : Encoding) (fuel b : Nat) (src : List Nat) (si : Nat)
    (h : (decodeLoop enc (fuel + 1) (b :: src) si []).2 = none) :
    (decodeQuantum enc (b :: src) si).err = none := by
  simp only [decodeLoop] at h
  split at h
  · exact h
  · rename_i hn
    simpa using hn

/-- On a source without line breaks that strict decoding accepts, decoding
succeeds and the encoder maps the decoded bytes back to the source. -/
theorem roundtrip_loop (fuel : Nat) :
    ∀ (src : List Nat) (si si' : Nat), src.length ≤ fuel → (∀ b ∈ src, b ≠ 10 ∧ b ≠ 13) →
      (decodeLoop ⟨true⟩ fuel src si []).2 = none →
      (decodeLoop ⟨false⟩ fuel src si' []).2 = none ∧
        (encodeBytes (decodeLoop ⟨false⟩ fuel src si' []).1).map Char.toNat = src := by
  induction fuel with
  | zero =>
    intro src si si' hlen _ _
    have : src = [] := List.eq_nil_of_length_eq_zero (by omega)
    subst this
    simp [decodeLoop, encodeBytes]
  | succ fuel ih =>
    intro src si si' hlen hnl hstrict
    cases src with
    | nil => simp [decodeLoop, encodeBytes]
    | cons b src' =>
      have hq := decodeLoop_ok_quantum ⟨true⟩ fuel b src' si hstrict
      rw [decodeLoop_step _ _ _ _ _ hq] at hstrict
      simp only at hstrict
      rcases decodeQuantum_cases ⟨true⟩ (b :: src') si hnl (by simp) hq with
        ⟨b0, b1, b2, b3, rest, d0, d1, d2, d3, hsrc, h0, h1, h2, h3, hqe⟩ |
        ⟨b0, b1, b2, d0, d1, d2, hsrc, h0, h1, h2, hqe⟩ |
        ⟨b0, b1, d0, d1, hsrc, h0, h1, hqe⟩
      · obtain ⟨_, hd0, _, _, _, hc0⟩ := decodeMap_some _ _ h0
        obtain ⟨_, hd1, _, _, _, hc1⟩ := decodeMap_some _ _ h1
        obtain ⟨_, hd2, _, _, _, hc2⟩ := decodeMap_some _ _ h2
        obtain ⟨_, hd3, _, _, _, hc3⟩ := decodeMap_some _ _ h3
        rw [hqe, quantumBytes_rest, quantumBytes_nsi] at hstrict
        have hrest : ∀ x ∈ rest, x ≠ 10 ∧ x ≠ 13 := by
          intro x hx
          exact hnl x (by rw [hsrc]; simp [hx])
        have hlen' : rest.length ≤ fuel := by
          rw [hsrc] at hlen
          simp only [List.length_cons] at hlen
          omega
        obtain ⟨ih1, ih2⟩ := ih rest (si + 4) (si' + 4) hlen' hrest hstrict
        have hf := decodeQuantum_four ⟨false⟩ b0 b1 b2 b3 d0 d1 d2 d3 rest si' h0 h1 h2 h3
        obtain ⟨e1, e2, e3⟩ := quantum4_encode ⟨false⟩ d0 d1 d2 d3 hd0 hd1 hd2 hd3 rest (si' + 4)
          (decodeLoop ⟨false⟩ fuel rest (si' + 4) []).1
        rw [← hsrc] at hf
        rw [decodeLoop_step _ _ _ _ _ (by rw [hf]; exact e1), hf, quantumBytes_rest,
          quantumBytes_nsi]
        refine ⟨ih1, ?_⟩
        simp only
        rw [e3, hsrc]
        simp [hc0, hc1, hc2, hc3, ih2]
      · obtain ⟨_, hd0, _, _, _, hc0⟩ := decodeMap_some _ _ h0
        obtain ⟨_, hd1, _, _, _, hc1⟩ := decodeMap_some _ _ h1
        obtain ⟨_, hd2, _, _, _, hc2⟩ := decodeMap_some _ _ h2
        have hf := decodeQuantum_three ⟨false⟩ b0 b1 b2 d0 d1 d2 si' h0 h1 h2
        obtain ⟨e1, e2, e3⟩ := quantum3_encode d0 d1 d2 hd0 hd1 hd2 (si + 4) (si' + 4)
          (by rw [← hqe]; exact hq)
        rw [← hsrc] at hf
        rw [decodeLoop_step _ _ _ _ _ (by rw [hf]; exact e1), hf, e2, decodeLoop_nil]
        simp only [List.append_nil, true_and]
        rw [e3, hsrc]
        simp [hc0, hc1, hc2, padChar]
      · obtain ⟨_, hd0, _, _, _, hc0⟩ := decodeMap_some _ _ h0
        obtain ⟨_, hd1, _, _, _, hc1⟩ := decodeMap_some _ _ h1
        have hf := decodeQuantum_two ⟨false⟩ b0 b1 d0 d1 si' h0 h1
        obtain ⟨e1, e2, e3⟩ := quantum2_encode d0 d1 hd0 hd1 (si + 4) (si' + 4)
          (by rw [← hqe]; exact hq)
        rw [← hsrc] at hf
        rw [decodeLoop_step _ _ _ _ _ (by rw [hf]; exact e1), hf, e2, decodeLoop_nil]
        simp only [List.append_nil, true_and]
        rw [e3, hsrc]
        simp [hc0, hc1, padChar]

theorem char_toNat_inj (a b : Char) (h : a.toNat = b.toNat) : a = b := by
  apply Char.ext
  apply UInt32.ext
  exact h

set_option maxRecDepth 100000 in
theorem encodeChar_mem : ∀ d, d < 64 → encodeChar d ∈ encodeStd := by
  decide

theorem utf8Bytes_ne_nil (c : Char) : utf8Bytes c ≠ [] := by
  unfold utf8Bytes
  simp only
  split_ifs <;> simp

theorem foreign_byte (body : String)
    (h : ∃ c ∈ body.data, c ∉ encodeStd ∧ c ≠ '=' ∧ c ≠ '\r' ∧ c ≠ '\n') :
    ∃ b ∈ stringBytes body, decodeMap b = none ∧ b ≠ 10 ∧ b ≠ 13 ∧ b ≠ padChar := by
  rcases h with ⟨c, hc, hstd, heq, hcr, hlf⟩
  rcases Nat.lt_or_ge c.toNat 128 with hlt | hge
  · refine ⟨c.toNat, ?_, ?_, ?_, ?_, ?_⟩
    · simp only [stringBytes, List.mem_flatMap]
      exact ⟨c, hc, by rw [utf8Bytes_ascii c hlt]; simp⟩
    · cases hd : decodeMap c.toNat with
      | none => rfl
      | some d =>
        obtain ⟨_, hd64, _, _, _, hch⟩ := decodeMap_some _ _ hd
        exact absurd (char_toNat_inj _ _ hch ▸ encodeChar_mem d hd64) hstd
    · exact fun h10 => hlf (char_toNat_inj c '\n' h10)
    · exact fun h13 => hcr (char_toNat_inj c '\r' h13)
    · exact fun h61 => heq (char_toNat_inj c '=' h61)
  · obtain ⟨b, hb⟩ := List.exists_mem_of_ne_nil _ (utf8Bytes_ne_nil c)
    have hb128 := utf8Bytes_high c hge b hb
    refine ⟨b, ?_, ?_, by omega, by omega, by unfold padChar; omega⟩
    · simp only [stringBytes, List.mem_flatMap]
      exact ⟨c, hc, hb⟩
    · cases hd : decodeMap b with
      | none => rfl
      | some d =>
        have := decodeMap_ascii b d hd
        omega

/-- C5, as stated, fails: the line break of the body `aGVsbG8=` followed by
CR LF is outside the alphabet, yet the body is decoded, and
`GetAttachments` succeeds on `wrappedMessage`, whose attachment has that
body. -/
theorem C5_line_break_is_decoded :
    (∃ c ∈ "aGVsbG8=\r\n".data, c ∉ encodeStd ∧ c ≠ '=') ∧
      StdEncoding.DecodeString "aGVsbG8=\r\n" = ([104, 101, 108, 108, 111], none) ∧
      GetAttachments wrappedMessage = (some [⟨"a.txt", [104, 101, 108, 108, 111]⟩], none) := by
  refine ⟨⟨'\n', by decide, by decide, by decide⟩, by decide, by decide⟩

/-- C5, amended: a body with a character that is neither in the base64
alphabet, nor `=`, nor CR, nor LF is rejected by the decoder, and
`GetAttachments` returns an error on every message that has a part
classified as an attachment with such a body. -/
theorem C5_foreign_character_fails (body : String)
    (h : ∃ c ∈ body.data, c ∉ encodeStd ∧ c ≠ '=' ∧ c ≠ '\r' ∧ c ≠ '\n') :
    (StdEncoding.DecodeString body).2 ≠ none ∧
      ∀ msg : Message, (∃ p ∈ msg.MIME.Parts, partFilename p ≠ "" ∧ p.Body = body) →
        (GetAttachments msg).2 ≠ none := by
  have hdec : (StdEncoding.DecodeString body).2 ≠ none :=
    decodeLoop_bad StdEncoding _ _ 0 [] (Nat.le_refl _) (foreign_byte body h)
  refine ⟨hdec, ?_⟩
  rintro msg ⟨p, hp, hf, hb⟩
  rw [GetAttachments, loop_err_iff]
  refine ⟨p, hp, ?_⟩
  simp only [failsOn, hf, ne_eq, not_false_eq_true, decide_True, Bool.true_and, hb]
  exact Option.isSome_iff_ne_none.mpr hdec

/-- C5, amended, at the body `a*b` of `malformedMessage`. -/
theorem C5_foreign_character_fails_witness :
    (StdEncoding.DecodeString "a*b").2 ≠ none ∧ (GetAttachments malformedMessage).2 ≠ none :=
  have h := C5_foreign_character_fails "a*b" ⟨'*', by decide, by decide, by decide, by decide,
    by decide⟩
  ⟨h.1, h.2 malformedMessage
    ⟨.mk [("Content-Disposition", ["attachment; filename=\"b.bin\""])] "a*b" [],
      by simp [malformedMessage], by decide, rfl⟩⟩

/-- C4, as stated, fails: the decoder accepts `aGVsbG8=` followed by a line
feed, and `QR==`, whose last character has non-zero padding bits; the
encoder gives back `aGVsbG8=` and `QQ==`. -/
theorem C4_round_trip_fails :
    (StdEncoding.DecodeString "aGVsbG8=\n").2 = none ∧
      EncodeToString (StdEncoding.DecodeString "aGVsbG8=\n").1 ≠ "aGVsbG8=\n" ∧
      (StdEncoding.DecodeString "QR==").2 = none ∧
      EncodeToString (StdEncoding.DecodeString "QR==").1 ≠ "QR==" := by
  decide

/-- C4, amended: for a string without CR and LF that the decoder accepts in
strict mode (the padding bits of the last character are zero), the decoder
succeeds and re-encoding the decoded bytes gives exactly the string. -/
theorem C4_canonical_round_trip (s : String)
    (hnl : ∀ c ∈ s.data, c ≠ '\r' ∧ c ≠ '\n')
    (hstrict : (StdEncoding.Strict.DecodeString s).2 = none) :
    (StdEncoding.DecodeString s).2 = none ∧
      EncodeToString (StdEncoding.DecodeString s).1 = s := by
  have hascii : ∀ c ∈ s.data, c.toNat < 128 := by
    intro c hc
    by_contra hge
    obtain ⟨b, hb⟩ := List.exists_mem_of_ne_nil _ (utf8Bytes_ne_nil c)
    have hb128 := utf8Bytes_high c (by omega) b hb
    have hbad : ∃ b ∈ stringBytes s, decodeMap b = none ∧ b ≠ 10 ∧ b ≠ 13 ∧ b ≠ padChar := by
      refine ⟨b, ?_, ?_, by omega, by omega, by unfold padChar; omega⟩
      · simp only [stringBytes, List.mem_flatMap]
        exact ⟨c, hc, hb⟩
      · cases hd : decodeMap b with
        | none => rfl
        | some d =>
          have := decodeMap_ascii b d hd
          omega
    exact decodeLoop_bad ⟨true⟩ _ _ 0 [] (Nat.le_refl _) hbad hstrict
  have hbytes : stringBytes s = s.data.map Char.toNat := by
    unfold stringBytes
    generalize s.data = l at hascii
    induction l with
    | nil => rfl
    | cons c cs ih =>
      rw [List.flatMap_cons, utf8Bytes_ascii c (hascii c (List.mem_cons_self _ _)),
        ih (fun d hd => hascii d (List.mem_cons_of_mem _ hd))]
      rfl
  have hnl' : ∀ b ∈ stringBytes s, b ≠ 10 ∧ b ≠ 13 := by
    intro b hb
    rw [hbytes] at hb
    rcases List.mem_map.mp hb with ⟨c, hc, rfl⟩
    exact ⟨fun h10 => (hnl c hc).2 (char_toNat_inj c '\n' h10),
      fun h13 => (hnl c hc).1 (char_toNat_inj c '\r' h13)⟩
  obtain ⟨h1, h2⟩ := roundtrip_loop (stringBytes s).length (stringBytes s) 0 0
    (Nat.le_refl _) hnl' hstrict
  refine ⟨h1, ?_⟩
  have h3 : encodeBytes (StdEncoding.DecodeString s).1 = s.data := by
    apply List.map_injective_iff.mpr (fun a b h => char_toNat_inj a b h)
    show List.map Char.toNat (encodeBytes (StdEncoding.DecodeString s).1) = _
    rw [← hbytes]
    exact h2
  unfold EncodeToString
  rw [h3]

/-- C4, amended, at `aGVsbG8=`. -/
theorem C4_canonical_round_trip_witness :
    (StdEncoding.DecodeString "aGVsbG8=").2 = none ∧
      EncodeToString (StdEncoding.DecodeString "aGVsbG8=").1 = "aGVsbG8=" :=
  C4_canonical_round_trip "aGVsbG8=" (by decide) (by decide)

end SmtpToSlack
